import Mathlib

/-!
Verification of the transaction engine of the `japm-rs` package manager.

The development shallowly embeds the dependency resolver
(`src/commands.rs`), the action data model (`src/action.rs`,
`src/package.rs`), the store interface as implemented by both
`SqlitePackagesDb` and the mock store (`src/db.rs`), and the
build/commit pipeline of `src/main.rs`.

Modelling conventions:
* The package store is a list of `LocalPackage` records; `getPackage`,
  `getAllPackages` and `getDependingPackages` are the read operations of
  the `PackagesDb` trait (`db.rs` implements `get_package` as "first row
  whose name matches", `get_depending_packages` as "all rows whose
  dependency list contains the name").  Store reads are modelled as
  infallible; the `Database`/`DatabaseGet` error constructors of the
  source are kept but are unreachable in the model.
* The package finder (`PackageFinder::find_package`) is a function from
  a name to `Except String (Option RemotePackage)`, i.e. a
  deterministic lookup that can fail, report "not found", or return a
  package.
* Recursion in the resolver has no cycle guard in the source; the
  embedding adds a fuel parameter, and `Res.fuelOut` marks executions
  the source would not complete (unbounded recursion).
* Every resolver function additionally returns the list of store/lookup
  calls it performed (`Event`), in order, so that claims about which
  collaborator operations are invoked can be stated.  Progress-reporter
  calls are not modelled (purely observational).
-/

namespace Japm

/-- Package identity fields, from `PackageData` in `src/package.rs`. -/
structure PackageData where
  name : String
  version : String
  description : String
deriving DecidableEq, Repr

/-- A package as described remotely, from `RemotePackage` in `src/package.rs`. -/
structure RemotePackage where
  package_data : PackageData
  dependencies : List String
  pre_install : List String
  install : List String
  post_install : List String
  pre_remove : List String
  package_files : List String
  post_remove : List String
deriving DecidableEq, Repr

/-- A locally installed package record, from `LocalPackage` in `src/package.rs`. -/
structure LocalPackage where
  package_data : PackageData
  dependencies : List String
  pre_remove : List String
  package_files : List String
  post_remove : List String
deriving DecidableEq, Repr

/-- An action, from `Action` in `src/action.rs`.  Equality is the derived
structural equality (the Rust type derives `PartialEq`/`Eq`). -/
inductive Action where
  | Install (package : RemotePackage)
  | Remove (package : LocalPackage)
deriving DecidableEq, Repr

/-- The reinstall policy, from `ReinstallOptions` in `src/commands.rs`. -/
inductive ReinstallOptions where
  | Update
  | ForceReinstall
  | Ignore
deriving DecidableEq, Repr

/-- Resolution errors of the install path, from `InstallError` in
`src/commands/errors.rs`.  The semver parse error is carried as a string
(the source converts it with `to_string`); the model uses the offending
version string as the message. -/
inductive InstallError where
  | PackageNotFound (name : String)
  | Find (e : String)
  | VersionParse (msg : String)
  | Database (e : String)
deriving DecidableEq, Repr

/-- Resolution errors of the remove path, from `RemoveError` in
`src/commands/errors.rs`. -/
inductive RemoveError where
  | PackageNotInstalled (name : String)
  | DependencyBreak (name : String) (depending : List String)
  | DatabaseGet (e : String)
deriving DecidableEq, Repr

/-- Resolution errors of the update path, from `UpdateError` in
`src/commands/errors.rs` (the `Remove` variant is unreachable from the
functions modelled here and is omitted). -/
inductive UpdateError where
  | DatabaseGet (e : String)
  | Install (e : InstallError)
deriving DecidableEq, Repr

/-- Outcome of a fuelled computation: a value, a resolver error, or fuel
exhaustion (standing for executions the source would never finish). -/
inductive Res (ε α : Type) where
  | ok (a : α)
  | err (e : ε)
  | fuelOut
deriving DecidableEq, Repr

/-- A store or lookup call performed during resolution, named after the
`PackagesDb` trait methods (`src/db.rs`) and `PackageFinder::find_package`
(`src/commands.rs`). -/
inductive Event where
  | findPackage (name : String)
  | getPackage (name : String)
  | getAllPackages
  | getDependingPackages (name : String)
  | addPackage (name : String)
  | removePackage (name : String)
deriving DecidableEq, Repr

/-- Whether an event is a store write (`add_package` / `remove_package`). -/
def Event.isStoreWrite : Event → Bool
  | .addPackage _ => true
  | .removePackage _ => true
  | _ => false

/-- The package store: the rows of the `packages` table (`src/db.rs`),
equivalently the `installed_packges` vector of the mock store. -/
abbrev Store := List LocalPackage

/-- `PackagesDb::get_package`: first record whose name matches. -/
def getPackage (db : Store) (name : String) : Option LocalPackage :=
  db.find? (fun p => p.package_data.name == name)

/-- `PackagesDb::get_all_packages`. -/
def getAllPackages (db : Store) : List LocalPackage := db

/-- `PackagesDb::get_depending_packages`: all records listing `name` as a
direct dependency (`src/db.rs`). -/
def getDependingPackages (db : Store) (name : String) : List LocalPackage :=
  db.filter (fun p => p.dependencies.contains name)

/-- The package lookup service (`PackageFinder::find_package`). -/
abbrev Finder := String → Except String (Option RemotePackage)

/-! ### The insertion-ordered deduplicating set

`src/commands.rs` uses `LinkedHashSet<T> = LinkedHashMap<T, ()>` from the
`linked-hash-map` crate.  Iteration follows the order of the internal
linked list; `insert` of a key that is already present detaches its node
and re-attaches it at the back of that list, so a re-inserted element
moves to the back of the iteration order.  The model keeps the ordered
key list. -/

/-- `LinkedHashMap::insert` on the key list: an existing key is detached
and re-attached at the back of the iteration order; a new key is attached
at the back. -/
def lhsInsert {α : Type} [DecidableEq α] (l : List α) (a : α) : List α :=
  if a ∈ l then l.erase a ++ [a] else l ++ [a]

/-- `Extend::extend` of a linked hash set: insert each element in order. -/
def lhsExtend {α : Type} [DecidableEq α] (l s : List α) : List α :=
  s.foldl lhsInsert l

/-! ### Semantic versions

`install_package` compares versions with `semver::Version::parse` and
`Version::cmp`.  The model parses `major.minor.patch[-pre][+build]` over
character lists and compares with semver precedence (numeric identifiers
below alphanumeric ones, absent prerelease above any prerelease), with
build metadata as the final tie-breaker as in the `semver` crate. -/

/-- A prerelease identifier: numeric or alphanumeric. -/
inductive PreId where
  | num (n : Nat)
  | alpha (s : List Char)
deriving DecidableEq, Repr

/-- A parsed semantic version. -/
structure SemVer where
  major : Nat
  minor : Nat
  patch : Nat
  pre : List PreId
  build : List (List Char)
deriving DecidableEq, Repr

/-- Characters allowed in prerelease/build identifiers. -/
def isIdentChar (c : Char) : Bool :=
  c.isAlphanum || c == '-'

/-- Digit list to number (most significant first). -/
def digitsToNat (cs : List Char) : Nat :=
  cs.foldl (fun a c => a * 10 + (c.toNat - 48)) 0

/-- Parse a numeric component: nonempty, all digits, no leading zero
(except the single digit `0`), as required by semver. -/
def parseNumStrict (cs : List Char) : Option Nat :=
  if cs = [] then none
  else if ¬ cs.all (fun c => c.isDigit) then none
  else if cs.head? = some '0' ∧ 1 < cs.length then none
  else some (digitsToNat cs)

/-- Split a character list on a separator character. -/
def splitOnChar (sep : Char) (cs : List Char) : List (List Char) :=
  match cs with
  | [] => [[]]
  | c :: rest =>
    match splitOnChar sep rest with
    | [] => [[]]
    | grp :: grps => if c == sep then [] :: grp :: grps else (c :: grp) :: grps

/-- Parse one prerelease identifier. -/
def parsePreId (cs : List Char) : Option PreId :=
  if cs = [] then none
  else if ¬ cs.all isIdentChar then none
  else if cs.all (fun c => c.isDigit) then
    match parseNumStrict cs with
    | some n => some (.num n)
    | none => none
  else some (.alpha cs)

/-- Parse one build identifier (leading zeros are allowed here). -/
def parseBuildId (cs : List Char) : Option (List Char) :=
  if cs = [] then none
  else if ¬ cs.all isIdentChar then none
  else some cs

/-- Sequence a list of options. -/
def optionsAll {α : Type} (l : List (Option α)) : Option (List α) :=
  match l with
  | [] => some []
  | o :: rest =>
    match o, optionsAll rest with
    | some a, some as' => some (a :: as')
    | _, _ => none

/-- Parse a full semantic version string (`semver::Version::parse`). -/
def parseVersion (s : String) : Option SemVer :=
  let cs := s.toList
  let beforePlus := cs.takeWhile (fun c => ¬ c == '+')
  let plusRest := cs.dropWhile (fun c => ¬ c == '+')
  let corePart := beforePlus.takeWhile (fun c => ¬ c == '-')
  let dashRest := beforePlus.dropWhile (fun c => ¬ c == '-')
  match splitOnChar '.' corePart with
  | [ma, mi, pa] =>
    match parseNumStrict ma, parseNumStrict mi, parseNumStrict pa with
    | some major, some minor, some patch =>
      let preIds : Option (List PreId) :=
        match dashRest with
        | [] => some []
        | _ :: preChars => optionsAll ((splitOnChar '.' preChars).map parsePreId)
      let buildIds : Option (List (List Char)) :=
        match plusRest with
        | [] => some []
        | _ :: buildChars => optionsAll ((splitOnChar '.' buildChars).map parseBuildId)
      match preIds, buildIds with
      | some pre, some build => some ⟨major, minor, patch, pre, build⟩
      | _, _ => none
    | _, _, _ => none
  | _ => none

/-- Lexicographic comparison of character lists (ASCII order). -/
def cmpCharList : List Char → List Char → Ordering
  | [], [] => .eq
  | [], _ :: _ => .lt
  | _ :: _, [] => .gt
  | a :: as', b :: bs =>
    match compare a.toNat b.toNat with
    | .eq => cmpCharList as' bs
    | o => o

/-- Compare prerelease identifiers: numeric before alphanumeric, numeric
by value, alphanumeric lexically. -/
def cmpPreId : PreId → PreId → Ordering
  | .num a, .num b => compare a b
  | .num _, .alpha _ => .lt
  | .alpha _, .num _ => .gt
  | .alpha a, .alpha b => cmpCharList a b

/-- Compare nonempty prerelease identifier lists; a longer list with equal
head identifiers has higher precedence. -/
def cmpPreList : List PreId → List PreId → Ordering
  | [], [] => .eq
  | [], _ :: _ => .lt
  | _ :: _, [] => .gt
  | a :: as', b :: bs =>
    match cmpPreId a b with
    | .eq => cmpPreList as' bs
    | o => o

/-- Compare prerelease fields: absence of prerelease has the higher
precedence. -/
def cmpPre (a b : List PreId) : Ordering :=
  match a, b with
  | [], [] => .eq
  | [], _ :: _ => .gt
  | _ :: _, [] => .lt
  | _, _ => cmpPreList a b

/-- Compare one build identifier as the `semver` crate's `Ord` does:
all-digit identifiers below alphanumeric ones and ordered by length then
lexically (this orders them by numeric value, tolerating leading zeros). -/
def cmpBuildId (a b : List Char) : Ordering :=
  match a.all (fun c => c.isDigit), b.all (fun c => c.isDigit) with
  | true, true =>
    match compare a.length b.length with
    | .eq => cmpCharList a b
    | o => o
  | true, false => .lt
  | false, true => .gt
  | false, false => cmpCharList a b

/-- Compare build metadata (the `semver` crate uses it as an `Ord`
tie-breaker; empty metadata is lowest). -/
def cmpBuild : List (List Char) → List (List Char) → Ordering
  | [], [] => .eq
  | [], _ :: _ => .lt
  | _ :: _, [] => .gt
  | a :: as', b :: bs =>
    match cmpBuildId a b with
    | .eq => cmpBuild as' bs
    | o => o

/-- `semver::Version::cmp`. -/
def semverCmp (a b : SemVer) : Ordering :=
  (compare a.major b.major).then
    ((compare a.minor b.minor).then
      ((compare a.patch b.patch).then
        ((cmpPre a.pre b.pre).then (cmpBuild a.build b.build))))

/-! ### The dependency resolver: install path

`install_package` (`src/commands.rs`, lines 155-246): look the package up
with the finder first, then query the store for an existing record and
apply the reinstall policy, then recurse into the dependencies and
finally append this package's `Install` action.

The recursion is structural on the fuel: each loop is parameterised by
the one-level-less recursive call, so all definitions reduce
definitionally on concrete inputs. -/

/-- The dependency loop of `install_package`, which is also the body of
`install_packages`: resolve each name with `ip` and merge into the
accumulating ordered set. -/
def install_deps (ip : String → List Event × Res InstallError (List Action))
    (deps : List String) (acc : List Action) :
    List Event × Res InstallError (List Action) :=
  match deps with
  | [] => ([], .ok acc)
  | d :: rest =>
    match ip d with
    | (tr, .ok s) =>
      match install_deps ip rest (lhsExtend acc s) with
      | (tr2, r) => (tr ++ tr2, r)
    | (tr, r) => (tr, r)

/-- The tail of `install_package` shared by the three branches that
proceed to installation: recurse into the dependencies, then insert
`Install(remote)` after them. -/
def install_continue (ip : String → List Event × Res InstallError (List Action))
    (remote_package : RemotePackage) (acc : List Action) (tr0 : List Event) :
    List Event × Res InstallError (List Action) :=
  match install_deps ip remote_package.dependencies acc with
  | (tr, .ok s) => (tr0 ++ tr, .ok (lhsInsert s (.Install remote_package)))
  | (tr, r) => (tr0 ++ tr, r)

/-- `install_package` of `src/commands.rs`.  Returns the ordered event
trace and the resolved action set (the key list of the `LinkedHashSet`). -/
def install_package (fuel : Nat) (package_name : String) (finder : Finder)
    (reinstall_options : ReinstallOptions) (db : Store) :
    List Event × Res InstallError (List Action) :=
  match fuel with
  | 0 => ([], .fuelOut)
  | fuel + 1 =>
    match finder package_name with
    | .error e => ([.findPackage package_name], .err (.Find e))
    | .ok none => ([.findPackage package_name], .err (.PackageNotFound package_name))
    | .ok (some remote_package) =>
      let tr0 : List Event :=
        [.findPackage package_name, .getPackage remote_package.package_data.name]
      let ip := fun d => install_package fuel d finder reinstall_options db
      match getPackage db remote_package.package_data.name with
      | some local_package =>
        match reinstall_options with
        | .ForceReinstall =>
          install_continue ip remote_package [Action.Remove local_package] tr0
        | .Update =>
          match parseVersion remote_package.package_data.version with
          | none => (tr0, .err (.VersionParse remote_package.package_data.version))
          | some remote_version =>
            match parseVersion local_package.package_data.version with
            | none => (tr0, .err (.VersionParse local_package.package_data.version))
            | some local_version =>
              if semverCmp remote_version local_version = .gt then
                install_continue ip remote_package [Action.Remove local_package] tr0
              else
                (tr0, .ok [])
        | .Ignore => (tr0, .ok [])
      | none => install_continue ip remote_package [] tr0

/-- `install_packages` of `src/commands.rs`: fold the per-name resolutions
into one ordered deduplicated list. -/
def install_packages (fuel : Nat) (packages : List String) (finder : Finder)
    (reinstall_options : ReinstallOptions) (db : Store) :
    List Event × Res InstallError (List Action) :=
  install_deps (fun n => install_package fuel n finder reinstall_options db) packages []

/-! ### Reverse-dependency traversal -/

/-- The loop of `get_depending_recursive`: recurse with `gdr` into each
depending package, then insert the package itself after its own
dependents. -/
def gdr_loop (gdr : String → List Event × Res String (List LocalPackage))
    (pkgs : List LocalPackage) (acc : List LocalPackage) :
    List Event × Res String (List LocalPackage) :=
  match pkgs with
  | [] => ([], .ok acc)
  | p :: rest =>
    match gdr p.package_data.name with
    | (tr, .ok s) =>
      match gdr_loop gdr rest (lhsInsert (lhsExtend acc s) p) with
      | (tr2, r) => (tr ++ tr2, r)
    | (tr, r) => (tr, r)

/-- `get_depending_recursive` of `src/commands.rs`: depth-limited walk over
"packages that depend on X" edges, collecting an insertion-ordered
deduplicated set. -/
def get_depending_recursive (fuel : Nat) (package_name : String) (db : Store)
    (level max_level : Int) : List Event × Res String (List LocalPackage) :=
  if level = max_level then ([], .ok [])
  else
    match fuel with
    | 0 => ([], .fuelOut)
    | fuel + 1 =>
      let depending := getDependingPackages db package_name
      match gdr_loop (fun nm => get_depending_recursive fuel nm db (level + 1) max_level)
          depending [] with
      | (tr, r) => (.getDependingPackages package_name :: tr, r)

/-- `get_depending` of `src/commands.rs`: start the traversal at level 0
(the key list of the resulting set is returned directly). -/
def get_depending (fuel : Nat) (package_name : String) (db : Store)
    (max_level : Int) : List Event × Res String (List LocalPackage) :=
  get_depending_recursive fuel package_name db 0 max_level

/-! ### The dependency resolver: remove path -/

/-- The dependents loop of `remove_package`: resolve removal of each
depending package with `rp` and merge into the accumulating ordered set. -/
def remove_deps (rp : String → List Event × Res RemoveError (List Action))
    (deps : List LocalPackage) (acc : List Action) :
    List Event × Res RemoveError (List Action) :=
  match deps with
  | [] => ([], .ok acc)
  | d :: rest =>
    match rp d.package_data.name with
    | (tr, .ok s) =>
      match remove_deps rp rest (lhsExtend acc s) with
      | (tr2, r) => (tr ++ tr2, r)
    | (tr, r) => (tr, r)

/-- `remove_package` of `src/commands.rs`: look up the local record, query
the direct dependents; with dependents present either recurse into them
(recursive mode) or fail with `DependencyBreak`; finally append this
package's `Remove` action. -/
def remove_package (fuel : Nat) (package_name : String) (recursive : Bool)
    (db : Store) : List Event × Res RemoveError (List Action) :=
  match fuel with
  | 0 => ([], .fuelOut)
  | fuel + 1 =>
    match getPackage db package_name with
    | none => ([.getPackage package_name], .err (.PackageNotInstalled package_name))
    | some db_package =>
      match get_depending fuel package_name db 1 with
      | (trd, .ok depending_packages) =>
        let tr0 := Event.getPackage package_name :: trd
        if depending_packages.isEmpty then
          (tr0, .ok (lhsInsert [] (.Remove db_package)))
        else if recursive then
          match remove_deps (fun nm => remove_package fuel nm recursive db)
              depending_packages [] with
          | (tr2, .ok acc) => (tr0 ++ tr2, .ok (lhsInsert acc (.Remove db_package)))
          | (tr2, r) => (tr0 ++ tr2, r)
        else
          (tr0, .err (.DependencyBreak package_name
            (depending_packages.map (fun p => p.package_data.name))))
      | (trd, .err e) => (Event.getPackage package_name :: trd, .err (.DatabaseGet e))
      | (trd, .fuelOut) => (Event.getPackage package_name :: trd, .fuelOut)

/-- The loop of `remove_packages` over the requested names. -/
def remove_names_loop (fuel : Nat) (package_names : List String) (recursive : Bool)
    (db : Store) (acc : List Action) : List Event × Res RemoveError (List Action) :=
  match package_names with
  | [] => ([], .ok acc)
  | n :: rest =>
    match remove_package fuel n recursive db with
    | (tr, .ok s) =>
      match remove_names_loop fuel rest recursive db (lhsExtend acc s) with
      | (tr2, r) => (tr ++ tr2, r)
    | (tr, r) => (tr, r)

/-- `remove_packages` of `src/commands.rs`: fold the per-name removal
resolutions into one ordered deduplicated list. -/
def remove_packages (fuel : Nat) (package_names : List String) (recursive : Bool)
    (db : Store) : List Event × Res RemoveError (List Action) :=
  remove_names_loop fuel package_names recursive db []

/-! ### The dependency resolver: update path -/

/-- The loop of `update_packages` over the requested names.  Note the
accumulator is a plain vector (`Vec<Action>` in the source): per-name
results are concatenated, not merged through the deduplicating set. -/
def upd_loop (fuel : Nat) (package_names : List String) (finder : Finder)
    (db : Store) (acc : List Action) : List Event × Res UpdateError (List Action) :=
  match package_names with
  | [] => ([], .ok acc)
  | package_name :: rest =>
    match get_depending fuel package_name db (-1) with
    | (tr, .ok depending) =>
      let packages_to_update :=
        depending.map (fun p => p.package_data.name) ++ [package_name]
      match install_packages fuel packages_to_update finder .Update db with
      | (tr2, .ok acts) =>
        match upd_loop fuel rest finder db (acc ++ acts) with
        | (tr3, r) => (tr ++ tr2 ++ tr3, r)
      | (tr2, .err e) => (tr ++ tr2, .err (.Install e))
      | (tr2, .fuelOut) => (tr ++ tr2, .fuelOut)
    | (tr, .err e) => (tr, .err (.DatabaseGet e))
    | (tr, .fuelOut) => (tr, .fuelOut)

/-- `update_packages` of `src/commands.rs`: for each name, prepend its
full transitive dependent closure (depth cap `-1`, i.e. none), then run
the install path with policy `Update`. -/
def update_packages (fuel : Nat) (package_names : List String) (finder : Finder)
    (db : Store) : List Event × Res UpdateError (List Action) :=
  upd_loop fuel package_names finder db []

/-- `update_all_packages` of `src/commands.rs`: enumerate every installed
package name and run the install path once with policy `Update`. -/
def update_all_packages (fuel : Nat) (finder : Finder) (db : Store) :
    List Event × Res UpdateError (List Action) :=
  let packages := (getAllPackages db).map (fun p => p.package_data.name)
  match install_packages fuel packages finder .Update db with
  | (tr, .ok acts) => (.getAllPackages :: tr, .ok acts)
  | (tr, .err e) => (.getAllPackages :: tr, .err (.Install e))
  | (tr, .fuelOut) => (.getAllPackages :: tr, .fuelOut)

/-! ### Derived notions used by the claims -/

/-- The (variant, package name) key of an action: the identity the spec's
dedup invariant speaks about. -/
def actionKey : Action → Bool × String
  | .Install p => (true, p.package_data.name)
  | .Remove p => (false, p.package_data.name)

/-- Map the error of a `Res` outcome (used when `update_all_packages`
wraps `InstallError` into `UpdateError::Install` via `?`). -/
def resMapErr {ε ε' α : Type} (f : ε → ε') : Res ε α → Res ε' α
  | .ok a => .ok a
  | .err e => .err (f e)
  | .fuelOut => .fuelOut

/-- A finder is name-consistent when every package it returns carries the
requested name (the Package Lookup contract: it "resolves a package name
to a remote package description"). -/
def FinderNameConsistent (finder : Finder) : Prop :=
  ∀ n p, finder n = .ok (some p) → p.package_data.name = n

/-- The store holds at most one record per name (spec invariant: "a name
uniquely identifies at most one locally-installed package"). -/
def NamesNodup (db : Store) : Prop :=
  (db.map (fun p => p.package_data.name)).Nodup

/-! ### Concrete fixtures for witnesses and counterexamples -/

/-- Remote package `a` (version 0.0.2, no dependencies). -/
def remoteA : RemotePackage := ⟨⟨"a", "0.0.2", ""⟩, [], [], [], [], [], [], []⟩

/-- Remote package `b` (version 0.0.2, depends on `a`). -/
def remoteB : RemotePackage := ⟨⟨"b", "0.0.2", ""⟩, ["a"], [], [], [], [], [], []⟩

/-- Installed record of `a` at version 0.0.1. -/
def localA : LocalPackage := ⟨⟨"a", "0.0.1", ""⟩, [], [], [], []⟩

/-- Installed record of `b` at version 0.0.1, depending on `a`. -/
def localB : LocalPackage := ⟨⟨"b", "0.0.1", ""⟩, ["a"], [], [], []⟩

/-- A finder serving `remoteA` and `remoteB`. -/
def finderAB : Finder := fun n =>
  if n = "a" then .ok (some remoteA)
  else if n = "b" then .ok (some remoteB)
  else .ok none

/-- A finder whose lookup fails for every name. -/
def finderBoom : Finder := fun _ => .error "boom"

/-! ### Ordered-set lemma library -/

section LhsLemmas

variable {α : Type} [DecidableEq α]

theorem mem_lhsInsert {l : List α} {a b : α} :
    b ∈ lhsInsert l a ↔ b ∈ l ∨ b = a := by
  unfold lhsInsert
  split
  · rename_i h
    simp only [List.mem_append, List.mem_singleton]
    constructor
    · rintro (hb | rfl)
      · exact Or.inl (List.mem_of_mem_erase hb)
      · exact Or.inr rfl
    · rintro (hb | rfl)
      · by_cases hba : b = a
        · exact Or.inr hba
        · exact Or.inl ((List.mem_erase_of_ne hba).mpr hb)
      · exact Or.inr rfl
  · simp

theorem lhsInsert_nodup {l : List α} {a : α} (h : l.Nodup) :
    (lhsInsert l a).Nodup := by
  unfold lhsInsert
  split
  · rename_i ha
    have he : (l.erase a).Nodup := h.erase a
    have hna : a ∉ l.erase a := fun hm => ((h.mem_erase_iff).mp hm).1 rfl
    simpa [List.nodup_append, hna] using he
  · rename_i hna
    simpa [List.nodup_append, hna] using h

/-- The inserted element always ends up at the back of the list. -/
theorem lhsInsert_getLast {l : List α} {a : α} :
    (lhsInsert l a).getLast? = some a := by
  unfold lhsInsert
  split
  · exact List.getLast?_concat _
  · exact List.getLast?_concat _

theorem mem_lhsExtend {l s : List α} {b : α} :
    b ∈ lhsExtend l s ↔ b ∈ l ∨ b ∈ s := by
  induction s generalizing l with
  | nil => simp [lhsExtend]
  | cons a s ih =>
    show b ∈ lhsExtend (lhsInsert l a) s ↔ _
    rw [ih, mem_lhsInsert]
    simp only [List.mem_cons]
    tauto

theorem lhsExtend_nodup {l s : List α} (h : l.Nodup) :
    (lhsExtend l s).Nodup := by
  induction s generalizing l with
  | nil => exact h
  | cons a s ih => exact ih (lhsInsert_nodup h)

/-- Extending with elements none of which is already present just appends
them (no node is ever detached). -/
theorem lhsExtend_of_disjoint {l s : List α} (hs : s.Nodup)
    (hdisj : ∀ a ∈ s, a ∉ l) : lhsExtend l s = l ++ s := by
  induction s generalizing l with
  | nil => simp [lhsExtend]
  | cons a s ih =>
    have hna : a ∉ s := (List.nodup_cons.mp hs).1
    have hs' : s.Nodup := (List.nodup_cons.mp hs).2
    show lhsExtend (lhsInsert l a) s = _
    have hins : lhsInsert l a = l ++ [a] := by
      unfold lhsInsert
      rw [if_neg (hdisj a (List.mem_cons_self _ _))]
    rw [hins, ih hs' ?_]
    · simp
    · intro x hx
      simp only [List.mem_append, List.mem_singleton]
      rintro (hxl | rfl)
      · exact hdisj x (List.mem_cons_of_mem _ hx) hxl
      · exact hna hx

theorem lhsExtend_nil (l : List α) : lhsExtend l [] = l := rfl

theorem lhsExtend_cons (l : List α) (a : α) (s : List α) :
    lhsExtend l (a :: s) = lhsExtend (lhsInsert l a) s := rfl

end LhsLemmas


/-! ### Store lemmas -/

theorem getPackage_name {db : Store} {n : String} {p : LocalPackage}
    (h : getPackage db n = some p) : p.package_data.name = n := by
  unfold getPackage at h
  have h' := List.find?_some h
  simpa using h'

theorem getPackage_mem {db : Store} {n : String} {p : LocalPackage}
    (h : getPackage db n = some p) : p ∈ db :=
  List.mem_of_find?_eq_some h

theorem getPackage_self {db : Store} {p : LocalPackage}
    (hnn : NamesNodup db) (hp : p ∈ db) :
    getPackage db p.package_data.name = some p := by
  induction db with
  | nil => cases hp
  | cons q t ih =>
    unfold NamesNodup at hnn
    simp only [List.map_cons, List.nodup_cons] at hnn
    obtain ⟨hqn, hnn'⟩ := hnn
    rcases List.mem_cons.mp hp with rfl | hp'
    · unfold getPackage
      rw [List.find?_cons_of_pos]
      simp
    · have hne : q.package_data.name ≠ p.package_data.name := fun he =>
        hqn (he ▸ List.mem_map_of_mem _ hp')
      unfold getPackage
      rw [List.find?_cons_of_neg]
      · exact ih hnn' hp'
      · simpa using hne


/-! ### The install-resolution invariant bundle

For every successful resolution the returned action list is
duplicate-free, every `Remove` is the store's record for its name, and —
for a name-consistent finder — every `Install` is the finder's package
for its name. -/

/-- Provenance of `Install` actions: each comes from the finder under its
own name. -/
def ProvI (finder : Finder) (s : List Action) : Prop :=
  ∀ D, Action.Install D ∈ s → finder D.package_data.name = .ok (some D)

/-- Provenance of `Remove` actions: each is the store's record under its
own name. -/
def ProvR (db : Store) (s : List Action) : Prop :=
  ∀ p, Action.Remove p ∈ s → getPackage db p.package_data.name = some p

/-- The bundle carried through install resolution. -/
def BundleI (finder : Finder) (db : Store) (s : List Action) : Prop :=
  s.Nodup ∧ ProvR db s ∧ (FinderNameConsistent finder → ProvI finder s)

theorem provR_lhsExtend {db : Store} {l s : List Action}
    (hl : ProvR db l) (hs : ProvR db s) : ProvR db (lhsExtend l s) := by
  intro p hp
  rcases mem_lhsExtend.mp hp with h | h
  · exact hl p h
  · exact hs p h

theorem provI_lhsExtend {finder : Finder} {l s : List Action}
    (hl : ProvI finder l) (hs : ProvI finder s) :
    ProvI finder (lhsExtend l s) := by
  intro D hD
  rcases mem_lhsExtend.mp hD with h | h
  · exact hl D h
  · exact hs D h

theorem bundleI_lhsExtend {finder : Finder} {db : Store} {l s : List Action}
    (hl : BundleI finder db l) (hs : BundleI finder db s) :
    BundleI finder db (lhsExtend l s) := by
  refine ⟨lhsExtend_nodup hl.1, provR_lhsExtend hl.2.1 hs.2.1, fun hfc => ?_⟩
  exact provI_lhsExtend (hl.2.2 hfc) (hs.2.2 hfc)

theorem bundleI_nil {finder : Finder} {db : Store} : BundleI finder db [] := by
  refine ⟨List.nodup_nil, ?_, fun _ => ?_⟩ <;> intro x hx <;> cases hx

/-- The dependency/batch loop preserves the bundle. -/
theorem install_deps_bundle {finder : Finder} {opts : ReinstallOptions} {db : Store}
    {fuel : Nat}
    (hipb : ∀ n s', (install_package fuel n finder opts db).2 = .ok s' →
      BundleI finder db s') :
    ∀ ds acc s,
      (install_deps (fun d => install_package fuel d finder opts db) ds acc).2 = .ok s →
      BundleI finder db acc → BundleI finder db s := by
  intro ds
  induction ds with
  | nil =>
    intro acc s h hacc
    have hs : acc = s := by simpa [install_deps] using h
    subst hs
    exact hacc
  | cons d rest ih =>
    intro acc s h hacc
    simp only [install_deps] at h
    rcases hd : install_package fuel d finder opts db with ⟨tr1, r1⟩
    rw [hd] at h
    cases r1 with
    | ok s1 =>
      dsimp only at h
      have hb1 : BundleI finder db s1 := hipb d s1 (by rw [hd])
      exact ih (lhsExtend acc s1) s h (bundleI_lhsExtend hacc hb1)
    | err e => simp at h
    | fuelOut => simp at h

/-- Every successful `install_package` resolution satisfies the bundle. -/
theorem install_package_bundle {finder : Finder} {opts : ReinstallOptions} {db : Store} :
    ∀ fuel n s, (install_package fuel n finder opts db).2 = .ok s →
      BundleI finder db s := by
  intro fuel
  induction fuel with
  | zero =>
    intro n s h
    simp [install_package] at h
  | succ f ih =>
    intro n s h
    simp only [install_package] at h
    cases hfind : finder n with
    | error e => rw [hfind] at h; simp at h
    | ok o =>
      cases o with
      | none => rw [hfind] at h; simp at h
      | some remote =>
        rw [hfind] at h
        dsimp only at h
        have hcont : ∀ acc0 tr0, BundleI finder db acc0 →
            (install_continue (fun d => install_package f d finder opts db)
              remote acc0 tr0).2 = .ok s →
            (FinderNameConsistent finder → remote.package_data.name = n) →
            BundleI finder db s := by
          intro acc0 tr0 hacc0 hc hname
          simp only [install_continue] at hc
          rcases hdeps : install_deps (fun d => install_package f d finder opts db)
              remote.dependencies acc0 with ⟨tr, r⟩
          rw [hdeps] at hc
          cases r with
          | ok s1 =>
            dsimp only at hc
            have hs : lhsInsert s1 (.Install remote) = s := by injection hc
            have hb1 : BundleI finder db s1 :=
              install_deps_bundle (fun n' s' h' => ih n' s' h')
                remote.dependencies acc0 s1 (by rw [hdeps]) hacc0
            subst hs
            refine ⟨lhsInsert_nodup hb1.1, ?_, fun hfc => ?_⟩
            · intro p hp
              rcases mem_lhsInsert.mp hp with h' | h'
              · exact hb1.2.1 p h'
              · cases h'
            · intro D hD
              rcases mem_lhsInsert.mp hD with h' | h'
              · exact hb1.2.2 hfc D h'
              · cases h'
                rw [hname hfc]
                exact hfind
          | err e => simp at hc
          | fuelOut => simp at hc
        cases hloc : getPackage db remote.package_data.name with
        | none =>
          rw [hloc] at h
          dsimp only at h
          exact hcont [] _ bundleI_nil h (fun hfc => hfc n remote hfind)
        | some lp =>
          rw [hloc] at h
          dsimp only at h
          have hlp : BundleI finder db [Action.Remove lp] := by
            refine ⟨by simp, ?_, fun _ => ?_⟩
            · intro p hp
              rcases List.mem_singleton.mp hp with h'
              injection h' with h''
              subst h''
              rw [getPackage_name hloc]
              exact hloc
            · intro D hD
              rcases List.mem_singleton.mp hD with h'
              cases h'
          cases opts with
          | ForceReinstall =>
            exact hcont [.Remove lp] _ hlp h (fun hfc => hfc n remote hfind)
          | Ignore =>
            have h1 : Res.ok ([] : List Action) = Res.ok s := h
            injection h1 with h2
            subst h2
            exact bundleI_nil
          | Update =>
            cases hrv : parseVersion remote.package_data.version with
            | none => rw [hrv] at h; simp at h
            | some rv =>
              rw [hrv] at h
              dsimp only at h
              cases hlv : parseVersion lp.package_data.version with
              | none => rw [hlv] at h; simp at h
              | some lv =>
                rw [hlv] at h
                dsimp only at h
                by_cases hcmp : semverCmp rv lv = .gt
                · rw [if_pos hcmp] at h
                  exact hcont [.Remove lp] _ hlp h (fun hfc => hfc n remote hfind)
                · rw [if_neg hcmp] at h
                  have h1 : Res.ok ([] : List Action) = Res.ok s := h
                  injection h1 with h2
                  subst h2
                  exact bundleI_nil

/-- With a name-consistent finder, the `Install` actions of a bundle
result are determined by their package name, and the (variant, name) keys
of the whole result are pairwise distinct. -/
theorem bundleI_key_nodup {finder : Finder} {db : Store}
    {l : List Action} (hfc : FinderNameConsistent finder)
    (hb : BundleI finder db l) : (l.map actionKey).Nodup := by
  obtain ⟨hnd, hpr, hrest⟩ := hb
  have hpi := hrest hfc
  refine List.Nodup.map_on ?_ hnd
  intro x hx y hy hxy
  cases x with
  | Install p =>
    cases y with
    | Install q =>
      simp only [actionKey, Prod.mk.injEq] at hxy
      have hp := hpi p hx
      have hq := hpi q hy
      rw [hxy.2] at hp
      rw [hp] at hq
      injection hq with h'
      injection h' with h''
      rw [h'']
    | Remove q => simp [actionKey] at hxy
  | Remove p =>
    cases y with
    | Install q => simp [actionKey] at hxy
    | Remove q =>
      simp only [actionKey, Prod.mk.injEq] at hxy
      have hp := hpr p hx
      have hq := hpr q hy
      rw [hxy.2] at hp
      rw [hp] at hq
      injection hq with h'
      rw [h']

/-! ### Claim C1 -/

/-- Remote package `c` (version 0.0.2, depending on `a` like `b` does). -/
def remoteC : RemotePackage := ⟨⟨"c", "0.0.2", ""⟩, ["a"], [], [], [], [], [], []⟩

/-- A finder serving `remoteA`, `remoteB` and `remoteC`. -/
def finderABC : Finder := fun n =>
  if n = "a" then .ok (some remoteA)
  else if n = "b" then .ok (some remoteB)
  else if n = "c" then .ok (some remoteC)
  else .ok none

/-- Claim C1 as stated is false: installing the batch `["b", "c"]`, where
both packages depend on `a`, yields `[Install b, Install a, Install c]` —
resolving `c` re-inserts `Install a` into the accumulated set, and
`LinkedHashMap::insert` moves a re-inserted key to the back of the
iteration order, placing the dependency `a` *after* its dependent `b`. -/
theorem claim_C1_counterexample :
    (install_packages 10 ["b", "c"] finderABC .Ignore []).2 =
      .ok [.Install remoteB, .Install remoteA, .Install remoteC] ∧
    remoteA.package_data.name ∈ remoteB.dependencies := by
  decide

/-- Claim C1 amended: the dependency-before-dependent ordering fails for
dependencies shared between branches (see the counterexample); what the
resolver does guarantee is that every successful non-empty
`install_package` resolution ends with the `Install` action of the
package the finder returned for the requested name — the requested
package's own action is inserted last and lands at the back, after
everything emitted for its dependencies. -/
theorem claim_C1_theorem (fuel : Nat) (package_name : String) (finder : Finder)
    (reinstall_options : ReinstallOptions) (db : Store) (l : List Action)
    (h : (install_package fuel package_name finder reinstall_options db).2 = .ok l)
    (hne : l ≠ []) :
    ∃ remote, finder package_name = .ok (some remote) ∧
      l.getLast? = some (.Install remote) := by
  cases fuel with
  | zero => simp [install_package] at h
  | succ f =>
    simp only [install_package] at h
    cases hfind : finder package_name with
    | error e => rw [hfind] at h; simp at h
    | ok o =>
      cases o with
      | none => rw [hfind] at h; simp at h
      | some remote =>
        rw [hfind] at h
        dsimp only at h
        have hcont : ∀ acc tr0,
            (install_continue (fun d => install_package f d finder reinstall_options db)
              remote acc tr0).2 = .ok l →
            l.getLast? = some (.Install remote) := by
          intro acc tr0 hc
          simp only [install_continue] at hc
          rcases hd : install_deps
              (fun d => install_package f d finder reinstall_options db)
              remote.dependencies acc with ⟨tr, r⟩
          rw [hd] at hc
          cases r with
          | ok s1 =>
            dsimp only at hc
            have h2 : lhsInsert s1 (.Install remote) = l := by injection hc
            rw [← h2]
            exact lhsInsert_getLast
          | err e => simp at hc
          | fuelOut => simp at hc
        cases hloc : getPackage db remote.package_data.name with
        | none =>
          rw [hloc] at h
          dsimp only at h
          exact ⟨remote, rfl, hcont [] _ h⟩
        | some lp =>
          rw [hloc] at h
          dsimp only at h
          cases reinstall_options with
          | ForceReinstall => exact ⟨remote, rfl, hcont [.Remove lp] _ h⟩
          | Ignore =>
            exfalso
            have h1 : Res.ok ([] : List Action) = Res.ok l := h
            injection h1 with h2
            exact hne h2.symm
          | Update =>
            cases hrv : parseVersion remote.package_data.version with
            | none => rw [hrv] at h; simp at h
            | some rv =>
              rw [hrv] at h
              dsimp only at h
              cases hlv : parseVersion lp.package_data.version with
              | none => rw [hlv] at h; simp at h
              | some lv =>
                rw [hlv] at h
                dsimp only at h
                by_cases hcmp : semverCmp rv lv = .gt
                · rw [if_pos hcmp] at h
                  exact ⟨remote, rfl, hcont [.Remove lp] _ h⟩
                · rw [if_neg hcmp] at h
                  exfalso
                  have h1 : Res.ok ([] : List Action) = Res.ok l := h
                  injection h1 with h2
                  exact hne h2.symm

/-- `finderAB` returns packages carrying the requested name. -/
theorem finderAB_nc : FinderNameConsistent finderAB := by
  intro n p h
  unfold finderAB at h
  split_ifs at h with h1 h2
  · injection h with h'
    injection h' with h''
    subst h''
    rw [h1]
    rfl
  · injection h with h'
    injection h' with h''
    subst h''
    rw [h2]
    rfl
  · injection h with h'
    cases h'

/-- Witness for the amended C1 theorem: resolving `b` (which depends on
`a`) on an empty store yields `[Install a, Install b]`, ending with
`Install b`. -/
theorem claim_C1_witness :
    (install_package 10 "b" finderAB .Ignore []).2 =
      .ok [.Install remoteA, .Install remoteB] ∧
    ∃ remote, finderAB "b" = .ok (some remote) ∧
      ([Action.Install remoteA, .Install remoteB]).getLast? =
        some (.Install remote) :=
  ⟨by decide,
    claim_C1_theorem 10 "b" finderAB .Ignore []
      [.Install remoteA, .Install remoteB] (by decide) (by decide)⟩


/-! ### The remove-resolution invariant bundle

Every successful removal resolution returns a duplicate-free list of
`Remove` actions, each being the store's record for its name; under the
store's name-uniqueness invariant, every direct dependent of a removed
package is itself removed. -/

/-- All actions in the list are `Remove` actions. -/
def AllRemoves (s : List Action) : Prop :=
  ∀ a ∈ s, ∃ p, a = Action.Remove p

/-- The removal closure invariant: every installed package that directly
depends on a removed package is itself removed. -/
def InvR (db : Store) (l : List Action) : Prop :=
  ∀ Q, Action.Remove Q ∈ l → ∀ p, p ∈ db → Q.package_data.name ∈ p.dependencies →
    Action.Remove p ∈ l

/-- The full bundle carried through removal resolution. -/
def BundleR (db : Store) (s : List Action) : Prop :=
  s.Nodup ∧ ProvR db s ∧ AllRemoves s ∧ (NamesNodup db → InvR db s)

theorem allRemoves_lhsExtend {l s : List Action}
    (hl : AllRemoves l) (hs : AllRemoves s) : AllRemoves (lhsExtend l s) := by
  intro a ha
  rcases mem_lhsExtend.mp ha with h | h
  · exact hl a h
  · exact hs a h

theorem invR_lhsExtend {db : Store} {l s : List Action}
    (hl : InvR db l) (hs : InvR db s) : InvR db (lhsExtend l s) := by
  intro Q hQ p hp hdep
  rcases mem_lhsExtend.mp hQ with h | h
  · exact mem_lhsExtend.mpr (Or.inl (hl Q h p hp hdep))
  · exact mem_lhsExtend.mpr (Or.inr (hs Q h p hp hdep))

theorem bundleR_lhsExtend {db : Store} {l s : List Action}
    (hl : BundleR db l) (hs : BundleR db s) : BundleR db (lhsExtend l s) := by
  refine ⟨lhsExtend_nodup hl.1, provR_lhsExtend hl.2.1 hs.2.1,
    allRemoves_lhsExtend hl.2.2.1 hs.2.2.1, fun hnn => ?_⟩
  exact invR_lhsExtend (hl.2.2.2 hnn) (hs.2.2.2 hnn)

theorem bundleR_nil {db : Store} : BundleR db [] := by
  refine ⟨List.nodup_nil, ?_, ?_, fun _ => ?_⟩ <;> intro x hx <;> cases hx

/-! ### The depth-one reverse-dependency query -/

theorem gdr_stop {fuel : Nat} {nm : String} {db : Store} :
    get_depending_recursive fuel nm db 1 1 = ([], .ok []) := by
  cases fuel <;> simp [get_depending_recursive]

theorem gdr_loop_at_max {fuel : Nat} {db : Store} :
    ∀ ps acc, (gdr_loop (fun nm => get_depending_recursive fuel nm db 1 1)
      ps acc).2 = .ok (lhsExtend acc ps) := by
  intro ps
  induction ps with
  | nil => intro acc; rfl
  | cons p rest ih =>
    intro acc
    simp only [gdr_loop]
    rw [gdr_stop]
    dsimp only
    have h' := ih (lhsInsert (lhsExtend acc []) p)
    rw [lhsExtend_nil] at h'
    exact h'

/-- `get_depending(name, db, 1)` returns exactly the deduplicated direct
dependents. -/
theorem get_depending_one {fuel : Nat} {n : String} {db : Store} {dep : List LocalPackage}
    (h : (get_depending (fuel + 1) n db 1).2 = .ok dep) :
    dep = lhsExtend [] (getDependingPackages db n) := by
  unfold get_depending at h
  rw [get_depending_recursive] at h
  rw [if_neg (by decide)] at h
  dsimp only at h
  rcases hloop : gdr_loop (fun nm => get_depending_recursive fuel nm db (0 + 1) 1)
      (getDependingPackages db n) [] with ⟨tr, r⟩
  rw [hloop] at h
  have h2 := @gdr_loop_at_max fuel db (getDependingPackages db n) []
  rw [show ((0 : Int) + 1) = 1 by decide] at hloop
  rw [hloop] at h2
  have hr : r = .ok (lhsExtend [] (getDependingPackages db n)) := h2
  subst hr
  have h3 : Res.ok (lhsExtend [] (getDependingPackages db n)) = Res.ok dep := h
  injection h3 with h4
  exact h4.symm

theorem lhsExtend_nil_left {α : Type} [DecidableEq α] {s : List α} (hs : s.Nodup) :
    lhsExtend [] s = s := by
  have h : lhsExtend ([] : List α) s = [] ++ s :=
    lhsExtend_of_disjoint hs (fun a _ => List.not_mem_nil a)
  simpa using h

theorem mem_getDependingPackages {db : Store} {n : String} {p : LocalPackage} :
    p ∈ getDependingPackages db n ↔ p ∈ db ∧ n ∈ p.dependencies := by
  unfold getDependingPackages
  rw [List.mem_filter]
  simp

/-! ### Shape and bundle of removal resolutions -/

/-- A successful `remove_package` contains the `Remove` of the store's
record for the requested name, and that `Remove` — inserted last — is the
final element of the returned list. -/
theorem remove_package_ok_shape {fuel : Nat} {n : String} {rcv : Bool} {db : Store}
    {s : List Action} (h : (remove_package fuel n rcv db).2 = .ok s) :
    ∃ rec', getPackage db n = some rec' ∧ Action.Remove rec' ∈ s ∧
      s.getLast? = some (.Remove rec') := by
  cases fuel with
  | zero => simp [remove_package] at h
  | succ f =>
    simp only [remove_package] at h
    cases hgp : getPackage db n with
    | none => rw [hgp] at h; simp at h
    | some db_package =>
      rw [hgp] at h
      dsimp only at h
      rcases hgd : get_depending f n db 1 with ⟨trd, rd⟩
      rw [hgd] at h
      cases rd with
      | ok depending =>
        dsimp only at h
        by_cases hemp : depending.isEmpty
        · rw [if_pos hemp] at h
          have h1 : Res.ok (lhsInsert [] (Action.Remove db_package)) = Res.ok s := h
          injection h1 with h2
          refine ⟨db_package, rfl, ?_, ?_⟩
          · rw [← h2]
            exact mem_lhsInsert.mpr (Or.inr rfl)
          · rw [← h2]
            exact lhsInsert_getLast
        · rw [if_neg hemp] at h
          cases rcv with
          | false => simp at h
          | true =>
            rw [if_pos rfl] at h
            rcases hrd : remove_deps (fun nm => remove_package f nm true db)
                depending [] with ⟨tr2, r2⟩
            rw [hrd] at h
            cases r2 with
            | ok acc =>
              dsimp only at h
              have h1 : Res.ok (lhsInsert acc (Action.Remove db_package)) = Res.ok s := h
              injection h1 with h2
              refine ⟨db_package, rfl, ?_, ?_⟩
              · rw [← h2]
                exact mem_lhsInsert.mpr (Or.inr rfl)
              · rw [← h2]
                exact lhsInsert_getLast
            | err e => simp at h
            | fuelOut => simp at h
      | err e => simp at h
      | fuelOut => simp at h

/-- Loop invariant of the dependents loop of `remove_package`: the bundle
is preserved, accumulated actions stay in the result, and every processed
dependent's `Remove` is in the result. -/
theorem remove_deps_bundle {fuel : Nat} {rcv : Bool} {db : Store}
    (hrpb : ∀ nm s', (remove_package fuel nm rcv db).2 = .ok s' → BundleR db s') :
    ∀ ds acc s,
      (remove_deps (fun nm => remove_package fuel nm rcv db) ds acc).2 = .ok s →
      BundleR db acc →
      BundleR db s ∧ (∀ b ∈ acc, b ∈ s) ∧
        (∀ d ∈ ds, ∃ rec', getPackage db d.package_data.name = some rec' ∧
          Action.Remove rec' ∈ s) := by
  intro ds
  induction ds with
  | nil =>
    intro acc s h hacc
    have hs : acc = s := by simpa [remove_deps] using h
    subst hs
    exact ⟨hacc, fun b hb => hb, fun d hd => by cases hd⟩
  | cons d rest ih =>
    intro acc s h hacc
    simp only [remove_deps] at h
    rcases hd : remove_package fuel d.package_data.name rcv db with ⟨tr1, r1⟩
    rw [hd] at h
    cases r1 with
    | ok s1 =>
      dsimp only at h
      have hb1 : BundleR db s1 := hrpb d.package_data.name s1 (by rw [hd])
      have hacc' : BundleR db (lhsExtend acc s1) := bundleR_lhsExtend hacc hb1
      obtain ⟨hbs, hmono, hcov⟩ := ih (lhsExtend acc s1) s h hacc'
      refine ⟨hbs, ?_, ?_⟩
      · intro b hb
        exact hmono b (mem_lhsExtend.mpr (Or.inl hb))
      · intro e he
        rcases List.mem_cons.mp he with rfl | he'
        · obtain ⟨rec', hgp, hmem, _⟩ := remove_package_ok_shape (by rw [hd])
          exact ⟨rec', hgp, hmono _ (mem_lhsExtend.mpr (Or.inr hmem))⟩
        · exact hcov e he'
    | err e => simp at h
    | fuelOut => simp at h

/-- Every successful `remove_package` resolution satisfies the bundle. -/
theorem remove_package_bundle {db : Store} :
    ∀ fuel n rcv s, (remove_package fuel n rcv db).2 = .ok s → BundleR db s := by
  intro fuel
  induction fuel with
  | zero =>
    intro n rcv s h
    simp [remove_package] at h
  | succ f ih =>
    intro n rcv s h
    simp only [remove_package] at h
    cases hgp : getPackage db n with
    | none => rw [hgp] at h; simp at h
    | some db_package =>
      rw [hgp] at h
      dsimp only at h
      rcases hgd : get_depending f n db 1 with ⟨trd, rd⟩
      rw [hgd] at h
      cases rd with
      | ok depending =>
        dsimp only at h
        have hdep_mem : ∀ p, p ∈ depending ↔ p ∈ getDependingPackages db n := by
          intro p
          cases f with
          | zero =>
            exfalso
            rw [show get_depending 0 n db 1 = get_depending_recursive 0 n db 0 1 from rfl,
              get_depending_recursive] at hgd
            rw [if_neg (by decide)] at hgd
            injection hgd with h1 h2
            cases h2
          | succ f' =>
            have hdep := get_depending_one
              (show (get_depending (f' + 1) n db 1).2 = .ok depending by rw [hgd])
            rw [hdep, mem_lhsExtend]
            simp
        by_cases hemp : depending.isEmpty
        · rw [if_pos hemp] at h
          have h1 : Res.ok (lhsInsert [] (Action.Remove db_package)) = Res.ok s := h
          injection h1 with h2
          subst h2
          have hone : lhsInsert ([] : List Action) (Action.Remove db_package) =
              [Action.Remove db_package] := rfl
          rw [hone]
          refine ⟨by simp, ?_, ?_, fun hnn => ?_⟩
          · intro p hp
            rcases List.mem_singleton.mp hp with h'
            injection h' with h''
            subst h''
            rw [getPackage_name hgp]
            exact hgp
          · intro a ha
            rcases List.mem_singleton.mp ha with h'
            exact ⟨db_package, h'⟩
          · intro Q hQ p hp hdep
            exfalso
            rcases List.mem_singleton.mp hQ with h'
            injection h' with h''
            subst h''
            have hpdep : p ∈ depending := by
              rw [hdep_mem, mem_getDependingPackages]
              exact ⟨hp, getPackage_name hgp ▸ hdep⟩
            rw [List.isEmpty_iff] at hemp
            rw [hemp] at hpdep
            cases hpdep
        · rw [if_neg hemp] at h
          cases rcv with
          | false => simp at h
          | true =>
            rw [if_pos rfl] at h
            rcases hrd : remove_deps (fun nm => remove_package f nm true db)
                depending [] with ⟨tr2, r2⟩
            rw [hrd] at h
            cases r2 with
            | ok acc =>
              dsimp only at h
              have h1 : Res.ok (lhsInsert acc (Action.Remove db_package)) = Res.ok s := h
              injection h1 with h2
              obtain ⟨hbacc, _, hcov⟩ :=
                remove_deps_bundle (fun nm s' h' => ih nm true s' h')
                  depending [] acc (by rw [hrd]) bundleR_nil
              subst h2
              refine ⟨lhsInsert_nodup hbacc.1, ?_, ?_, fun hnn => ?_⟩
              · intro p hp
                rcases mem_lhsInsert.mp hp with h' | h'
                · exact hbacc.2.1 p h'
                · injection h' with h''
                  subst h''
                  rw [getPackage_name hgp]
                  exact hgp
              · intro a ha
                rcases mem_lhsInsert.mp ha with h' | h'
                · exact hbacc.2.2.1 a h'
                · exact ⟨db_package, h'⟩
              · intro Q hQ p hp hdep
                rcases mem_lhsInsert.mp hQ with hQ1 | hQ1
                · exact mem_lhsInsert.mpr
                    (Or.inl (hbacc.2.2.2 hnn Q hQ1 p hp hdep))
                · have hQdb : Q = db_package := by
                    injection hQ1
                  subst hQdb
                  have hpdep : p ∈ depending := by
                    rw [hdep_mem, mem_getDependingPackages]
                    exact ⟨hp, getPackage_name hgp ▸ hdep⟩
                  obtain ⟨rec', hgprec, hmemrec⟩ := hcov p hpdep
                  have hrecp : p = rec' := by
                    have hself := getPackage_self hnn hp
                    rw [hself] at hgprec
                    injection hgprec
                  rw [← hrecp] at hmemrec
                  exact mem_lhsInsert.mpr (Or.inl hmemrec)
            | err e => simp at h
            | fuelOut => simp at h
      | err e => simp at h
      | fuelOut => simp at h

/-- The per-name loop of `remove_packages` preserves the bundle. -/
theorem remove_names_loop_bundle {fuel : Nat} {rcv : Bool} {db : Store} :
    ∀ ns acc s, (remove_names_loop fuel ns rcv db acc).2 = .ok s →
      BundleR db acc → BundleR db s := by
  intro ns
  induction ns with
  | nil =>
    intro acc s h hacc
    have hs : acc = s := by simpa [remove_names_loop] using h
    subst hs
    exact hacc
  | cons n rest ih =>
    intro acc s h hacc
    simp only [remove_names_loop] at h
    rcases hd : remove_package fuel n rcv db with ⟨tr1, r1⟩
    rw [hd] at h
    cases r1 with
    | ok s1 =>
      dsimp only at h
      have hb1 : BundleR db s1 := remove_package_bundle fuel n rcv s1 (by rw [hd])
      exact ih (lhsExtend acc s1) s h (bundleR_lhsExtend hacc hb1)
    | err e => simp at h
    | fuelOut => simp at h

/-- The (variant, name) keys of a removal-bundle result are pairwise
distinct. -/
theorem bundleR_key_nodup {db : Store} {l : List Action} (hb : BundleR db l) :
    (l.map actionKey).Nodup := by
  obtain ⟨hnd, hpr, har, _⟩ := hb
  refine List.Nodup.map_on ?_ hnd
  intro x hx y hy hxy
  obtain ⟨p, rfl⟩ := har x hx
  obtain ⟨q, rfl⟩ := har y hy
  simp only [actionKey, Prod.mk.injEq] at hxy
  have hp := hpr p hx
  have hq := hpr q hy
  rw [hxy.2] at hp
  rw [hp] at hq
  injection hq with h'
  rw [h']

/-! ### Claim C3 -/

/-- `a` directly depends on `b`: `a` is an installed record listing `b`'s
name among its dependencies (so `a` is a direct dependent of `b`). -/
def DirectDepOn (db : Store) (a b : LocalPackage) : Prop :=
  a ∈ db ∧ b.package_data.name ∈ a.dependencies

/-- Full-pair version of `gdr_loop_at_max`: at the depth cap the loop
performs no store calls and returns the folded-in packages. -/
theorem gdr_loop_at_max_full {fuel : Nat} {db : Store} :
    ∀ ps acc, gdr_loop (fun nm => get_depending_recursive fuel nm db 1 1)
      ps acc = ([], .ok (lhsExtend acc ps)) := by
  intro ps
  induction ps with
  | nil => intro acc; rfl
  | cons p rest ih =>
    intro acc
    simp only [gdr_loop]
    rw [gdr_stop]
    dsimp only
    rw [lhsExtend_nil]
    rw [ih (lhsInsert acc p)]
    rw [lhsExtend_cons]
    simp

/-- Computed form of the depth-one dependents query. -/
theorem get_depending_one_eq {fuel : Nat} {n : String} {db : Store} :
    get_depending (fuel + 1) n db 1 =
      ([.getDependingPackages n], .ok (lhsExtend [] (getDependingPackages db n))) := by
  unfold get_depending
  rw [get_depending_recursive]
  rw [if_neg (by decide)]
  dsimp only
  rw [show ((0 : Int) + 1) = 1 from rfl]
  rw [gdr_loop_at_max_full]

theorem namesNodup_nodup {db : Store} (hnn : NamesNodup db) : db.Nodup :=
  List.Nodup.of_map _ hnn

/-- Installed record of `c` at version 0.0.1, depending on `a`. -/
def localC : LocalPackage := ⟨⟨"c", "0.0.1", ""⟩, ["a"], [], [], []⟩

/-- Installed record of `d` at version 0.0.1, depending on `b` and `c`. -/
def localD : LocalPackage := ⟨⟨"d", "0.0.1", ""⟩, ["b", "c"], [], [], []⟩

/-- A diamond store: `b` and `c` depend on `a`, and `d` depends on both
`b` and `c`. -/
def storeDiamond : Store := [localA, localB, localC, localD]

/-- The recursive half of claim C3 as stated is false: recursively
removing `a` from the diamond store yields `[Remove b, Remove d, Remove c,
Remove a]` — the second visit of `d` (through `c`) re-inserts `Remove d`,
and `LinkedHashMap::insert` moves it to the back, behind `Remove b`, even
though `d` depends on `b`; dependents-first order is violated. -/
theorem claim_C3_counterexample :
    (remove_packages 10 ["a"] true storeDiamond).2 =
      .ok [.Remove localB, .Remove localD, .Remove localC, .Remove localA] ∧
    localD ∈ storeDiamond ∧ localB.package_data.name ∈ localD.dependencies ∧
    ([Action.Remove localB, .Remove localD, .Remove localC,
      .Remove localA]).indexOf (.Remove localB) <
      ([Action.Remove localB, .Remove localD, .Remove localC,
        .Remove localA]).indexOf (.Remove localD) := by
  decide

/-- Claim C3 amended: when the requested name is installed and has at
least one direct dependent, non-recursive removal fails with
`DependencyBreak` carrying exactly the direct dependents' names (depth
one), while recursive removal returns a list that contains the `Remove`
of the target and of every transitive dependent and that *ends* with the
target's `Remove`; the claimed dependents-first order of the whole list
does not hold (see the counterexample). -/
theorem claim_C3_theorem (fuel : Nat) (package_name : String) (db : Store)
    (tgt : LocalPackage)
    (hnn : NamesNodup db)
    (hp : getPackage db package_name = some tgt)
    (hdep : getDependingPackages db package_name ≠ []) :
    ((remove_package (fuel + 2) package_name false db).2 =
      .err (.DependencyBreak package_name
        ((getDependingPackages db package_name).map (fun p => p.package_data.name)))) ∧
    (∀ fuel' l, (remove_package fuel' package_name true db).2 = .ok l →
      (Action.Remove tgt ∈ l) ∧
      (∀ q, Relation.TransGen (DirectDepOn db) q tgt → Action.Remove q ∈ l) ∧
      l.getLast? = some (.Remove tgt)) := by
  have hdnd : (getDependingPackages db package_name).Nodup :=
    List.Nodup.filter _ (namesNodup_nodup hnn)
  constructor
  · simp only [remove_package]
    rw [hp]
    dsimp only
    rw [get_depending_one_eq]
    dsimp only
    rw [lhsExtend_nil_left hdnd]
    rw [if_neg (by
      intro hemp
      exact hdep (List.isEmpty_iff.mp hemp))]
    rw [if_neg (by simp)]
  · intro fuel' l hok
    obtain ⟨hnd, hpr, har, hinv'⟩ := remove_package_bundle fuel' package_name true l hok
    have hinv := hinv' hnn
    obtain ⟨rec', hgp', hmemtgt, hlast⟩ := remove_package_ok_shape hok
    rw [hp] at hgp'
    injection hgp' with h'
    subst h'
    have hclosure : ∀ p q, Action.Remove p ∈ l →
        Relation.TransGen (DirectDepOn db) q p → Action.Remove q ∈ l := by
      intro p q hpmem htg
      induction htg using Relation.TransGen.head_induction_on with
      | base hr =>
        rename_i a
        exact hinv p hpmem a hr.1 hr.2
      | ih hr _htg2 hmem =>
        rename_i a c
        exact hinv c hmem a hr.1 hr.2
    exact ⟨hmemtgt, fun q htg => hclosure tgt q hmemtgt htg, hlast⟩

/-- Witness for the amended C3 theorem at a concrete store: `b` depends
on `a`; non-recursive removal of `a` breaks dependents `["b"]`. -/
theorem claim_C3_witness :
    (remove_package 5 "a" false [localA, localB]).2 =
      .err (.DependencyBreak "a" ["b"]) :=
  (claim_C3_theorem 3 "a" [localA, localB] localA
    (by unfold NamesNodup; decide) (by decide) (by decide)).1

/-! ### Claim C2: amended theorem -/

/-- Claim C2 amended: the key-uniqueness half of the dedup invariant — no
two actions with the same (variant, package name) — holds for
`install_packages`, `remove_packages` and `update_all_packages` (whose
results come from one deduplicating set); `update_packages` is excluded
(see the counterexample), and the claim's first-insertion-order clause is
dropped: a re-inserted duplicate moves to the back of the set, reordering
earlier entries (see the C1 counterexample). -/
theorem claim_C2_theorem (fuel : Nat) (finder : Finder)
    (reinstall_options : ReinstallOptions) (db : Store)
    (hfc : FinderNameConsistent finder) :
    (∀ names l, (install_packages fuel names finder reinstall_options db).2 = .ok l →
      (l.map actionKey).Nodup) ∧
    (∀ names rcv l, (remove_packages fuel names rcv db).2 = .ok l →
      (l.map actionKey).Nodup) ∧
    (∀ l, (update_all_packages fuel finder db).2 = .ok l →
      (l.map actionKey).Nodup) := by
  have hinst : ∀ (ro : ReinstallOptions) (names : List String) (l : List Action),
      (install_packages fuel names finder ro db).2 = .ok l →
      BundleI finder db l := by
    intro ro names l h
    simp only [install_packages] at h
    exact install_deps_bundle (install_package_bundle fuel) names [] l h bundleI_nil
  refine ⟨?_, ?_, ?_⟩
  · intro names l h
    exact bundleI_key_nodup hfc (hinst reinstall_options names l h)
  · intro names rcv l h
    simp only [remove_packages] at h
    exact bundleR_key_nodup (remove_names_loop_bundle names [] l h bundleR_nil)
  · intro l h
    simp only [update_all_packages] at h
    rcases hi : install_packages fuel
        ((getAllPackages db).map (fun p => p.package_data.name)) finder .Update db
      with ⟨tr, r⟩
    rw [hi] at h
    cases r with
    | ok acts =>
      have hl : acts = l := by
        have h1 : Res.ok acts = Res.ok l := h
        injection h1
      subst hl
      exact bundleI_key_nodup hfc (hinst .Update _ acts (by rw [hi]))
    | err e => simp at h
    | fuelOut => simp at h

/-- Witness for the amended C2 theorem: a batch resolving `[Install a,
Install b]` has pairwise-distinct action keys. -/
theorem claim_C2_witness :
    (install_packages 10 ["b"] finderAB .Ignore []).2 =
      .ok [.Install remoteA, .Install remoteB] ∧
    (([Action.Install remoteA, .Install remoteB]).map actionKey).Nodup :=
  ⟨by decide,
    (claim_C2_theorem 10 finderAB .Ignore [] finderAB_nc).1 ["b"]
      [.Install remoteA, .Install remoteB] (by decide)⟩


/-! ### Claim C4 -/

/-- Claim C4 as stated is false: `install_package` calls the finder
*before* the store existence check.  For the installed package `a` under
policy `Ignore`, the event trace contains a `findPackage` call, and with
a failing finder the result is a `Find` error rather than the empty
action list — so the result does depend on what the lookup returns. -/
theorem claim_C4_counterexample :
    (install_package 5 "a" finderAB .Ignore [localA]).2 = .ok [] ∧
    Event.findPackage "a" ∈ (install_package 5 "a" finderAB .Ignore [localA]).1 ∧
    (install_package 5 "a" finderBoom .Ignore [localA]).2 = .err (.Find "boom") := by
  decide

/-- Claim C4 amended: if the lookup succeeds for an already-installed
name, `Ignore`-policy resolution returns the empty action list, and the
calls performed are exactly the initial `find_package` (made first) and
the `get_package` existence check — dependencies are not visited. -/
theorem claim_C4_theorem (fuel : Nat) (package_name : String) (finder : Finder)
    (db : Store) (remote : RemotePackage) (local_package : LocalPackage)
    (hfind : finder package_name = .ok (some remote))
    (hname : remote.package_data.name = package_name)
    (hloc : getPackage db package_name = some local_package) :
    install_package (fuel + 1) package_name finder .Ignore db =
      ([.findPackage package_name, .getPackage package_name], .ok []) := by
  simp only [install_package, hfind, hname, hloc]

/-- Witness for the amended C4 theorem at a concrete input. -/
theorem claim_C4_witness :
    install_package 4 "a" finderAB .Ignore [localA] =
      ([.findPackage "a", .getPackage "a"], .ok []) :=
  claim_C4_theorem 3 "a" finderAB [localA] remoteA localA rfl rfl rfl

/-! ### Claim C7 -/

/-- Claim C7: with policy `Update` on an installed package, when both
version strings parse and the remote version is not greater than the
local one, resolution returns the empty action list (no Remove, no
Install) and performs no calls beyond the lookup and the existence check
(dependencies are not visited); and a parse failure of either version
string yields a `VersionParse` error. -/
theorem claim_C7_theorem (fuel : Nat) (package_name : String) (finder : Finder)
    (db : Store) (remote : RemotePackage) (local_package : LocalPackage)
    (hfind : finder package_name = .ok (some remote))
    (hname : remote.package_data.name = package_name)
    (hloc : getPackage db package_name = some local_package) :
    (∀ remote_version local_version,
      parseVersion remote.package_data.version = some remote_version →
      parseVersion local_package.package_data.version = some local_version →
      semverCmp remote_version local_version ≠ .gt →
      install_package (fuel + 1) package_name finder .Update db =
        ([.findPackage package_name, .getPackage package_name], .ok [])) ∧
    (parseVersion remote.package_data.version = none →
      install_package (fuel + 1) package_name finder .Update db =
        ([.findPackage package_name, .getPackage package_name],
         .err (.VersionParse remote.package_data.version))) ∧
    (∀ remote_version,
      parseVersion remote.package_data.version = some remote_version →
      parseVersion local_package.package_data.version = none →
      install_package (fuel + 1) package_name finder .Update db =
        ([.findPackage package_name, .getPackage package_name],
         .err (.VersionParse local_package.package_data.version))) := by
  refine ⟨?_, ?_, ?_⟩
  · intro remote_version local_version hrv hlv hcmp
    simp only [install_package, hfind, hname, hloc, hrv, hlv, if_neg hcmp]
  · intro hrv
    simp only [install_package, hfind, hname, hloc, hrv]
  · intro remote_version hrv hlv
    simp only [install_package, hfind, hname, hloc, hrv, hlv]

/-- Remote package `a` at the same version as the installed record. -/
def remoteAOld : RemotePackage := ⟨⟨"a", "0.0.1", ""⟩, [], [], [], [], [], [], []⟩

/-- A finder serving `remoteAOld`. -/
def finderAOld : Finder := fun n =>
  if n = "a" then .ok (some remoteAOld) else .ok none

/-- Witness for the C7 theorem: `a` installed at 0.0.1, remote also
0.0.1, `Update` resolution is a no-op. -/
theorem claim_C7_witness :
    install_package 4 "a" finderAOld .Update [localA] =
      ([.findPackage "a", .getPackage "a"], .ok []) :=
  (claim_C7_theorem 3 "a" finderAOld [localA] remoteAOld localA rfl rfl rfl).1
    ⟨0, 0, 1, [], []⟩ ⟨0, 0, 1, [], []⟩ rfl rfl (by decide)

/-! ### Claim C8 -/

/-- Two remote packages agreeing on identity and dependencies but with
different install scripts. -/
def rpScriptsOne : RemotePackage :=
  ⟨⟨"p", "1.0.0", "d"⟩, ["x"], [], ["echo one"], [], [], [], []⟩

/-- Like `rpScriptsOne` but with a different install script. -/
def rpScriptsTwo : RemotePackage :=
  ⟨⟨"p", "1.0.0", "d"⟩, ["x"], [], ["echo two"], [], [], [], []⟩

/-- Claim C8 as stated is false: `Action` equality is the derived full
structural equality, so two `Install` actions whose packages agree on
identity and dependency set but differ in their scripts are *not* equal. -/
theorem claim_C8_counterexample :
    rpScriptsOne.package_data = rpScriptsTwo.package_data ∧
    rpScriptsOne.dependencies = rpScriptsTwo.dependencies ∧
    Action.Install rpScriptsOne ≠ Action.Install rpScriptsTwo := by
  decide

/-- Claim C8 amended: two `Action` values are equal iff they have the same
variant and their embedded packages are equal on *all* fields (identity,
dependencies, every script list and `package_files`) — the equality used
for deduplication distinguishes actions that differ in any field. -/
theorem claim_C8_theorem :
    (∀ p q : RemotePackage, Action.Install p = Action.Install q ↔ p = q) ∧
    (∀ p q : LocalPackage, Action.Remove p = Action.Remove q ↔ p = q) ∧
    (∀ (p : RemotePackage) (q : LocalPackage), Action.Install p ≠ Action.Remove q) ∧
    (∀ p q : RemotePackage, p = q ↔
      (p.package_data = q.package_data ∧ p.dependencies = q.dependencies ∧
       p.pre_install = q.pre_install ∧ p.install = q.install ∧
       p.post_install = q.post_install ∧ p.pre_remove = q.pre_remove ∧
       p.package_files = q.package_files ∧ p.post_remove = q.post_remove)) := by
  refine ⟨?_, ?_, ?_, ?_⟩
  · intro p q
    exact ⟨fun h => by cases h; rfl, fun h => by rw [h]⟩
  · intro p q
    exact ⟨fun h => by cases h; rfl, fun h => by rw [h]⟩
  · intro p q h
    cases h
  · intro p q
    constructor
    · intro h
      cases h
      exact ⟨rfl, rfl, rfl, rfl, rfl, rfl, rfl, rfl⟩
    · intro ⟨h1, h2, h3, h4, h5, h6, h7, h8⟩
      cases p; cases q
      simp_all

/-- Witness for the amended C8 theorem: `Install` actions of distinct
packages (differing only in their install scripts) are distinct. -/
theorem claim_C8_witness :
    Action.Install rpScriptsOne ≠ Action.Install rpScriptsTwo := by
  intro h
  have h' := (claim_C8_theorem.1 rpScriptsOne rpScriptsTwo).mp h
  have h2 := (claim_C8_theorem.2.2.2 rpScriptsOne rpScriptsTwo).mp h'
  have h3 : rpScriptsOne.install = rpScriptsTwo.install := h2.2.2.2.1
  exact absurd h3 (by decide)

/-! ### Claim C9 -/

/-- Claim C9 as stated is false: on a store holding `a` (0.0.1) and `b`
(0.0.1, depending on `a`), with remote versions 0.0.2, `update_all_packages`
resolves one deduplicated batch while `update_packages` over the same
name list concatenates per-name resolutions, duplicating actions. -/
theorem claim_C9_counterexample :
    ["a", "b"] = (getAllPackages [localA, localB]).map (fun p => p.package_data.name) ∧
    (update_all_packages 10 finderAB [localA, localB]).2 =
      .ok [.Remove localB, .Remove localA, .Install remoteA, .Install remoteB] ∧
    (update_packages 10 ["a", "b"] finderAB [localA, localB]).2 =
      .ok [.Remove localB, .Install remoteB, .Remove localA, .Install remoteA,
           .Remove localB, .Remove localA, .Install remoteA, .Install remoteB] ∧
    (update_all_packages 10 finderAB [localA, localB]).2 ≠
      (update_packages 10 ["a", "b"] finderAB [localA, localB]).2 := by
  decide

/-- Claim C9 amended: updating "all" enumerates every locally-installed
package name and delegates directly to the *install* path (one
`install_packages` batch with policy `Update`, its error wrapped as
`UpdateError::Install`) — not to the named-list update path. -/
theorem claim_C9_theorem (fuel : Nat) (finder : Finder) (db : Store) :
    (update_all_packages fuel finder db).2 =
      resMapErr .Install
        (install_packages fuel ((getAllPackages db).map (fun p => p.package_data.name))
          finder .Update db).2 := by
  cases h : install_packages fuel ((getAllPackages db).map (fun p => p.package_data.name))
      finder .Update db with
  | mk tr r =>
    cases r <;> simp [update_all_packages, resMapErr, h]

/-- Witness for the amended C9 theorem at a concrete store and finder. -/
theorem claim_C9_witness :
    (update_all_packages 10 finderAB [localA, localB]).2 =
      resMapErr .Install
        (install_packages 10
          ((getAllPackages [localA, localB]).map (fun p => p.package_data.name))
          finderAB .Update [localA, localB]).2 :=
  claim_C9_theorem 10 finderAB [localA, localB]

/-! ### Claim C2: counterexample -/

/-- Claim C2 as stated is false for `update_packages`: its accumulator is
a plain vector, so the same actions resolved for two requested names are
returned twice — here the batch `["a", "a"]` on a store holding `a` at
0.0.1 with remote 0.0.2 yields the same Remove/Install pair twice (same
variant and package name at distinct positions). -/
theorem claim_C2_counterexample :
    (update_packages 10 ["a", "a"] finderAB [localA]).2 =
      .ok [.Remove localA, .Install remoteA, .Remove localA, .Install remoteA] ∧
    ¬ (([Action.Remove localA, .Install remoteA, .Remove localA,
         .Install remoteA]).map actionKey).Nodup := by
  decide

/-! ### Claim C10: resolution performs no store writes -/

/-- All events of a trace are store reads or lookups, never writes. -/
def TraceOK (tr : List Event) : Prop :=
  ∀ e ∈ tr, e.isStoreWrite = false

theorem traceOK_nil : TraceOK [] := fun e he => by cases he

theorem traceOK_append {t1 t2 : List Event} (h1 : TraceOK t1) (h2 : TraceOK t2) :
    TraceOK (t1 ++ t2) := by
  intro e he
  rcases List.mem_append.mp he with h | h
  · exact h1 e h
  · exact h2 e h

theorem traceOK_cons {e : Event} {tr : List Event}
    (h1 : e.isStoreWrite = false) (h2 : TraceOK tr) : TraceOK (e :: tr) := by
  intro e' he'
  rcases List.mem_cons.mp he' with rfl | h
  · exact h1
  · exact h2 e' h

theorem install_deps_traceOK {ip : String → List Event × Res InstallError (List Action)}
    (hip : ∀ n, TraceOK (ip n).1) :
    ∀ ds acc, TraceOK (install_deps ip ds acc).1 := by
  intro ds
  induction ds with
  | nil => intro acc; exact traceOK_nil
  | cons d rest ih =>
    intro acc
    simp only [install_deps]
    rcases hd : ip d with ⟨tr, r⟩
    have htr : TraceOK tr := by
      have h' := hip d
      rw [hd] at h'
      exact h'
    cases r with
    | ok s1 =>
      dsimp only
      exact traceOK_append htr (ih (lhsExtend acc s1))
    | err e => exact htr
    | fuelOut => exact htr

theorem install_continue_traceOK {ip : String → List Event × Res InstallError (List Action)}
    (hip : ∀ n, TraceOK (ip n).1) (rp : RemotePackage) (acc : List Action)
    {tr0 : List Event} (htr0 : TraceOK tr0) :
    TraceOK (install_continue ip rp acc tr0).1 := by
  simp only [install_continue]
  rcases hd : install_deps ip rp.dependencies acc with ⟨tr, r⟩
  have htr : TraceOK tr := by
    have h' := install_deps_traceOK hip rp.dependencies acc
    rw [hd] at h'
    exact h'
  cases r <;> exact traceOK_append htr0 htr

theorem install_package_traceOK (finder : Finder) (reinstall_options : ReinstallOptions)
    (db : Store) :
    ∀ fuel n, TraceOK (install_package fuel n finder reinstall_options db).1 := by
  intro fuel
  induction fuel with
  | zero => intro n; exact traceOK_nil
  | succ f ih =>
    intro n
    have htr0 : ∀ m, TraceOK [Event.findPackage n, Event.getPackage m] := by
      intro m
      exact traceOK_cons rfl (traceOK_cons rfl traceOK_nil)
    simp only [install_package]
    cases hfind : finder n with
    | error e => exact traceOK_cons rfl traceOK_nil
    | ok o =>
      cases o with
      | none => exact traceOK_cons rfl traceOK_nil
      | some remote =>
        dsimp only
        cases hloc : getPackage db remote.package_data.name with
        | none =>
          dsimp only
          exact install_continue_traceOK ih remote [] (htr0 _)
        | some lp =>
          dsimp only
          cases reinstall_options with
          | ForceReinstall => exact install_continue_traceOK ih remote [.Remove lp] (htr0 _)
          | Ignore => exact htr0 _
          | Update =>
            cases hrv : parseVersion remote.package_data.version with
            | none => exact htr0 _
            | some rv =>
              dsimp only
              cases hlv : parseVersion lp.package_data.version with
              | none => exact htr0 _
              | some lv =>
                dsimp only
                by_cases hcmp : semverCmp rv lv = .gt
                · rw [if_pos hcmp]
                  exact install_continue_traceOK ih remote [.Remove lp] (htr0 _)
                · rw [if_neg hcmp]
                  exact htr0 _

theorem gdr_loop_traceOK {gdr : String → List Event × Res String (List LocalPackage)}
    (hg : ∀ nm, TraceOK (gdr nm).1) :
    ∀ ps acc, TraceOK (gdr_loop gdr ps acc).1 := by
  intro ps
  induction ps with
  | nil => intro acc; exact traceOK_nil
  | cons p rest ih =>
    intro acc
    simp only [gdr_loop]
    rcases hd : gdr p.package_data.name with ⟨tr, r⟩
    have htr : TraceOK tr := by
      have h' := hg p.package_data.name
      rw [hd] at h'
      exact h'
    cases r with
    | ok s1 =>
      dsimp only
      exact traceOK_append htr (ih _)
    | err e => exact htr
    | fuelOut => exact htr

theorem get_depending_recursive_traceOK (db : Store) :
    ∀ fuel nm level max_level,
      TraceOK (get_depending_recursive fuel nm db level max_level).1 := by
  intro fuel
  induction fuel with
  | zero =>
    intro nm level max_level
    rw [get_depending_recursive]
    split
    · exact traceOK_nil
    · exact traceOK_nil
  | succ f ih =>
    intro nm level max_level
    rw [get_depending_recursive]
    split
    · exact traceOK_nil
    · dsimp only
      rcases hl : gdr_loop (fun nm' => get_depending_recursive f nm' db (level + 1) max_level)
          (getDependingPackages db nm) [] with ⟨tr, r⟩
      have htr : TraceOK tr := by
        have h' := gdr_loop_traceOK (fun nm' => ih nm' (level + 1) max_level)
          (getDependingPackages db nm) []
        rw [hl] at h'
        exact h'
      exact traceOK_cons rfl htr

theorem get_depending_traceOK (db : Store) (fuel : Nat) (nm : String) (max_level : Int) :
    TraceOK (get_depending fuel nm db max_level).1 :=
  get_depending_recursive_traceOK db fuel nm 0 max_level

theorem remove_deps_traceOK {rp : String → List Event × Res RemoveError (List Action)}
    (hrp : ∀ nm, TraceOK (rp nm).1) :
    ∀ ds acc, TraceOK (remove_deps rp ds acc).1 := by
  intro ds
  induction ds with
  | nil => intro acc; exact traceOK_nil
  | cons d rest ih =>
    intro acc
    simp only [remove_deps]
    rcases hd : rp d.package_data.name with ⟨tr, r⟩
    have htr : TraceOK tr := by
      have h' := hrp d.package_data.name
      rw [hd] at h'
      exact h'
    cases r with
    | ok s1 =>
      dsimp only
      exact traceOK_append htr (ih _)
    | err e => exact htr
    | fuelOut => exact htr

theorem remove_package_traceOK (db : Store) :
    ∀ fuel n rcv, TraceOK (remove_package fuel n rcv db).1 := by
  intro fuel
  induction fuel with
  | zero => intro n rcv; exact traceOK_nil
  | succ f ih =>
    intro n rcv
    simp only [remove_package]
    cases hgp : getPackage db n with
    | none => exact traceOK_cons rfl traceOK_nil
    | some db_package =>
      dsimp only
      rcases hgd : get_depending f n db 1 with ⟨trd, rd⟩
      have htrd : TraceOK trd := by
        have h' := get_depending_traceOK db f n 1
        rw [hgd] at h'
        exact h'
      cases rd with
      | ok depending =>
        dsimp only
        by_cases hemp : depending.isEmpty
        · rw [if_pos hemp]
          exact traceOK_cons rfl htrd
        · rw [if_neg hemp]
          cases rcv with
          | false =>
            rw [if_neg (by simp)]
            exact traceOK_cons rfl htrd
          | true =>
            rw [if_pos rfl]
            rcases hrd : remove_deps (fun nm => remove_package f nm true db)
                depending [] with ⟨tr2, r2⟩
            have htr2 : TraceOK tr2 := by
              have h' := remove_deps_traceOK (fun nm => ih nm true) depending []
              rw [hrd] at h'
              exact h'
            cases r2 <;> exact traceOK_append (traceOK_cons rfl htrd) htr2
      | err e => exact traceOK_cons rfl htrd
      | fuelOut => exact traceOK_cons rfl htrd

theorem remove_names_loop_traceOK (db : Store) (fuel : Nat) (rcv : Bool) :
    ∀ ns acc, TraceOK (remove_names_loop fuel ns rcv db acc).1 := by
  intro ns
  induction ns with
  | nil => intro acc; exact traceOK_nil
  | cons n rest ih =>
    intro acc
    simp only [remove_names_loop]
    rcases hd : remove_package fuel n rcv db with ⟨tr, r⟩
    have htr : TraceOK tr := by
      have h' := remove_package_traceOK db fuel n rcv
      rw [hd] at h'
      exact h'
    cases r with
    | ok s1 =>
      dsimp only
      exact traceOK_append htr (ih _)
    | err e => exact htr
    | fuelOut => exact htr

theorem upd_loop_traceOK (fuel : Nat) (finder : Finder) (db : Store) :
    ∀ ns acc, TraceOK (upd_loop fuel ns finder db acc).1 := by
  intro ns
  induction ns with
  | nil => intro acc; exact traceOK_nil
  | cons n rest ih =>
    intro acc
    simp only [upd_loop]
    rcases hd : get_depending fuel n db (-1) with ⟨tr, r⟩
    have htr : TraceOK tr := by
      have h' := get_depending_traceOK db fuel n (-1)
      rw [hd] at h'
      exact h'
    cases r with
    | ok depending =>
      dsimp only
      rcases hi : install_packages fuel
          (depending.map (fun p => p.package_data.name) ++ [n]) finder .Update db
        with ⟨tr2, r2⟩
      have htr2 : TraceOK tr2 := by
        have h' := install_deps_traceOK
          (fun nm => install_package_traceOK finder .Update db fuel nm)
          (depending.map (fun p => p.package_data.name) ++ [n]) []
        rw [show install_deps (fun nm => install_package fuel nm finder .Update db)
            (depending.map (fun p => p.package_data.name) ++ [n]) [] =
            install_packages fuel (depending.map (fun p => p.package_data.name) ++ [n])
              finder .Update db from rfl, hi] at h'
        exact h'
      cases r2 with
      | ok acts =>
        dsimp only
        exact traceOK_append (traceOK_append htr htr2) (ih _)
      | err e => exact traceOK_append htr htr2
      | fuelOut => exact traceOK_append htr htr2
    | err e => exact htr
    | fuelOut => exact htr

/-- Claim C10: every execution of the four resolver entry points —
successful or not — performs only the read operations `get_package`,
`get_all_packages`, `get_depending_packages` (and finder lookups) and
never `add_package` or `remove_package`; with the store a pure value,
the installed records are therefore identical before and after
resolution. -/
theorem claim_C10_theorem (fuel : Nat) (finder : Finder)
    (reinstall_options : ReinstallOptions) (db : Store)
    (names1 names2 names3 : List String) (rcv : Bool) :
    (∀ e ∈ (install_packages fuel names1 finder reinstall_options db).1,
      e.isStoreWrite = false) ∧
    (∀ e ∈ (remove_packages fuel names2 rcv db).1, e.isStoreWrite = false) ∧
    (∀ e ∈ (update_packages fuel names3 finder db).1, e.isStoreWrite = false) ∧
    (∀ e ∈ (update_all_packages fuel finder db).1, e.isStoreWrite = false) := by
  refine ⟨?_, ?_, ?_, ?_⟩
  · exact install_deps_traceOK
      (fun nm => install_package_traceOK finder reinstall_options db fuel nm) names1 []
  · exact remove_names_loop_traceOK db fuel rcv names2 []
  · exact upd_loop_traceOK fuel finder db names3 []
  · simp only [update_all_packages]
    rcases hi : install_packages fuel ((getAllPackages db).map (fun p => p.package_data.name))
        finder .Update db with ⟨tr, r⟩
    rw [hi]
    have htr : TraceOK tr := by
      have h' := install_deps_traceOK
        (fun nm => install_package_traceOK finder .Update db fuel nm)
        ((getAllPackages db).map (fun p => p.package_data.name)) []
      rw [show install_deps (fun nm => install_package fuel nm finder .Update db)
          ((getAllPackages db).map (fun p => p.package_data.name)) [] =
          install_packages fuel ((getAllPackages db).map (fun p => p.package_data.name))
            finder .Update db from rfl, hi] at h'
      exact h'
    cases r <;> exact traceOK_cons rfl htr

/-- Witness for C10: a concrete resolution whose (nonempty) trace
contains a lookup and an existence check, neither a store write. -/
theorem claim_C10_witness :
    (install_packages 5 ["a"] finderAB .Ignore [localA]).1 =
      [.findPackage "a", .getPackage "a"] ∧
    (Event.findPackage "a").isStoreWrite = false :=
  ⟨by decide,
    (claim_C10_theorem 5 finderAB .Ignore [localA] ["a"] [] [] false).1
      (.findPackage "a") (by decide)⟩

/-! ### The build phase (`build_actions`, `src/main.rs`)

Each action becomes one task of a bounded worker pool.  A worker takes
the next queued task in order; it first locks the shared error slot and
returns immediately (skipping the build) if it is occupied; otherwise it
builds, and on failure locks the slot again and stores its error —
unconditionally.  Check and store are two separate critical sections, so
the interleavings are modelled by a small-step relation with one `start`
(dequeue + check) and one `finish` (build completion) transition per
task. -/

/-- Build errors, from `BuildError` in `src/action.rs` (`IOErr` models
the `IO` variant; error payloads are kept as strings). -/
inductive BuildError where
  | Parse (msg : String)
  | IOErr (msg : String)
  | InvalidCommand (cmd : String) (msg : String)
  | CommandFail (cmd : String) (code : Int) (stderr : String)
deriving DecidableEq, Repr

/-- Lifecycle of one task of the pool. -/
inductive TStatus where
  | notStarted
  | running
  | skipped
  | finished
deriving DecidableEq, Repr

/-- The shared state of the build phase: the mutex-guarded first-error
slot and each task's status. -/
structure BState where
  slot : Option BuildError
  status : List TStatus
deriving DecidableEq, Repr

/-- All tasks queued, slot empty. -/
def initBState (n : Nat) : BState := ⟨none, List.replicate n .notStarted⟩

/-- Number of builds currently running (busy workers). -/
def runningCount (s : BState) : Nat :=
  (s.status.filter (fun st => st == .running)).length

/-- One scheduler step of the build phase.  `outcomes i` is the fixed
result task `i`'s build would produce.  `finishErr` overwrites the slot
unconditionally — exactly what `*build_error = Some(error)` does. -/
inductive BStep (outcomes : List (Option BuildError)) (maxThreads : Nat) :
    BState → BState → Prop where
  | start (s : BState) (i : Nat)
      (hfifo : s.status.findIdx? (fun st => st == .notStarted) = some i)
      (hslot : s.slot = none)
      (hpool : runningCount s < maxThreads) :
      BStep outcomes maxThreads s ⟨s.slot, s.status.set i .running⟩
  | skip (s : BState) (i : Nat) (e : BuildError)
      (hfifo : s.status.findIdx? (fun st => st == .notStarted) = some i)
      (hslot : s.slot = some e)
      (hpool : runningCount s < maxThreads) :
      BStep outcomes maxThreads s ⟨s.slot, s.status.set i .skipped⟩
  | finishOk (s : BState) (i : Nat)
      (hrun : s.status.get? i = some .running)
      (hout : outcomes.get? i = some none) :
      BStep outcomes maxThreads s ⟨s.slot, s.status.set i .finished⟩
  | finishErr (s : BState) (i : Nat) (e : BuildError)
      (hrun : s.status.get? i = some .running)
      (hout : outcomes.get? i = some (some e)) :
      BStep outcomes maxThreads s ⟨some e, s.status.set i .finished⟩

/-! ### Claim C5 -/

/-- A failing build of the first task. -/
def bErrOne : BuildError := .CommandFail "cmd-one" 1 ""

/-- A failing build of the second task. -/
def bErrTwo : BuildError := .CommandFail "cmd-two" 2 ""

/-- Two tasks, both of whose builds fail. -/
def bOutcomes : List (Option BuildError) := [some bErrOne, some bErrTwo]

/-- Claim C5 as stated is false: with the default pool width 3, both
tasks can start while the slot is empty; the first failure sets the slot
to `bErrOne`, and the second — already running — *overwrites* it with
`bErrTwo`.  Each step below is a legal transition. -/
theorem claim_C5_counterexample :
    BStep bOutcomes 3 (initBState 2) ⟨none, [.running, .notStarted]⟩ ∧
    BStep bOutcomes 3 ⟨none, [.running, .notStarted]⟩ ⟨none, [.running, .running]⟩ ∧
    BStep bOutcomes 3 ⟨none, [.running, .running]⟩
      ⟨some bErrOne, [.finished, .running]⟩ ∧
    BStep bOutcomes 3 ⟨some bErrOne, [.finished, .running]⟩
      ⟨some bErrTwo, [.finished, .finished]⟩ ∧
    bErrOne ≠ bErrTwo := by
  refine ⟨?_, ?_, ?_, ?_, by decide⟩
  · exact BStep.start (initBState 2) 0 rfl rfl (by decide)
  · exact BStep.start ⟨none, [.running, .notStarted]⟩ 1 rfl rfl (by decide)
  · exact BStep.finishErr ⟨none, [.running, .running]⟩ 0 bErrOne rfl rfl
  · exact BStep.finishErr ⟨some bErrOne, [.finished, .running]⟩ 1 bErrTwo rfl rfl

theorem bstep_slot_isSome {outcomes : List (Option BuildError)} {m : Nat}
    {s s' : BState} (h : BStep outcomes m s s') (hs : s.slot.isSome) :
    s'.slot.isSome := by
  cases h with
  | start i hfifo hslot hpool => exact hs
  | skip i e hfifo hslot hpool => exact hs
  | finishOk i hrun hout => exact hs
  | finishErr i e hrun hout => rfl

/-- Claim C5 amended: once the slot is set it is never cleared; a task
still queued when the slot is set never runs — it can only remain queued
or be skipped; and a running build is never cancelled: a step changes it
only to finished, and it can always take its finishing step.  (What the
original claim wrongly adds is that the slot is never overwritten: a
failure of an *already-running* build replaces the recorded error, see
the counterexample.) -/
theorem claim_C5_theorem (outcomes : List (Option BuildError)) (maxThreads : Nat) :
    (∀ s s', Relation.ReflTransGen (BStep outcomes maxThreads) s s' →
      s.slot.isSome → s'.slot.isSome) ∧
    (∀ s s' i, Relation.ReflTransGen (BStep outcomes maxThreads) s s' →
      s.slot.isSome → s.status.get? i = some .notStarted →
      s'.status.get? i = some .notStarted ∨ s'.status.get? i = some .skipped) ∧
    (∀ s s' i, BStep outcomes maxThreads s s' →
      s.status.get? i = some .running →
      s'.status.get? i = some .running ∨ s'.status.get? i = some .finished) ∧
    (∀ s i oi, s.status.get? i = some .running → outcomes.get? i = some oi →
      ∃ s', BStep outcomes maxThreads s s' ∧ s'.status.get? i = some .finished) := by
  have hfifo_ne : ∀ (st : List TStatus) (i j : Nat),
      st.findIdx? (fun x => x == TStatus.notStarted) = some i →
      st.get? j = some .running → i ≠ j := by
    intro st i j hfifo hrun he
    subst he
    obtain ⟨hlt, hbeq, _⟩ := List.findIdx?_eq_some_iff_getElem.mp hfifo
    rw [List.get?_eq_getElem?, List.getElem?_eq_getElem hlt] at hrun
    injection hrun with h'
    rw [h'] at hbeq
    cases hbeq
  have hstep_preserve : ∀ s s' i, BStep outcomes maxThreads s s' →
      s.slot.isSome →
      (s.status.get? i = some .notStarted ∨ s.status.get? i = some .skipped) →
      (s'.status.get? i = some .notStarted ∨ s'.status.get? i = some .skipped) := by
    intro s s' i hstep hslot hst
    cases hstep with
    | start j hfifo hslot' hpool =>
      rw [hslot'] at hslot
      cases hslot
    | skip j e hfifo hslot' hpool =>
      by_cases hij : j = i
      · subst hij
        have hj : j < s.status.length :=
          (List.findIdx?_eq_some_iff_findIdx_eq.mp hfifo).1
        right
        exact List.get?_set_eq_of_lt _ hj
      · rw [List.get?_set_ne _ _ hij]
        exact hst
    | finishOk j hrun hout =>
      have hij : j ≠ i := by
        intro he
        subst he
        rcases hst with hst | hst <;> rw [hrun] at hst <;> cases hst
      rw [List.get?_set_ne _ _ hij]
      exact hst
    | finishErr j e hrun hout =>
      have hij : j ≠ i := by
        intro he
        subst he
        rcases hst with hst | hst <;> rw [hrun] at hst <;> cases hst
      rw [List.get?_set_ne _ _ hij]
      exact hst
  refine ⟨?_, ?_, ?_, ?_⟩
  · intro s s' hrtg
    induction hrtg with
    | refl => exact id
    | tail hmid hstep ihm => exact fun hs => bstep_slot_isSome hstep (ihm hs)
  · intro s s' i hrtg hslot hst
    have hgen : s'.slot.isSome ∧
        (s'.status.get? i = some .notStarted ∨ s'.status.get? i = some .skipped) := by
      induction hrtg with
      | refl => exact ⟨hslot, Or.inl hst⟩
      | tail hmid hstep ihm =>
        exact ⟨bstep_slot_isSome hstep ihm.1, hstep_preserve _ _ i hstep ihm.1 ihm.2⟩
    exact hgen.2
  · intro s s' i hstep hrun
    cases hstep with
    | start j hfifo hslot hpool =>
      rw [List.get?_set_ne _ _ (hfifo_ne s.status j i hfifo hrun)]
      exact Or.inl hrun
    | skip j e hfifo hslot hpool =>
      rw [List.get?_set_ne _ _ (hfifo_ne s.status j i hfifo hrun)]
      exact Or.inl hrun
    | finishOk j hrun2 hout =>
      by_cases hij : j = i
      · subst hij
        obtain ⟨hj, _⟩ := List.get?_eq_some.mp hrun2
        right
        exact List.get?_set_eq_of_lt _ hj
      · rw [List.get?_set_ne _ _ hij]
        exact Or.inl hrun
    | finishErr j e hrun2 hout =>
      by_cases hij : j = i
      · subst hij
        obtain ⟨hj, _⟩ := List.get?_eq_some.mp hrun2
        right
        exact List.get?_set_eq_of_lt _ hj
      · rw [List.get?_set_ne _ _ hij]
        exact Or.inl hrun
  · intro s i oi hrun hout
    obtain ⟨hi, _⟩ := List.get?_eq_some.mp hrun
    cases oi with
    | none =>
      refine ⟨_, BStep.finishOk s i hrun hout, ?_⟩
      exact List.get?_set_eq_of_lt _ hi
    | some e =>
      refine ⟨_, BStep.finishErr s i e hrun hout, ?_⟩
      exact List.get?_set_eq_of_lt _ hi

/-- Witness for the amended C5 theorem: from a state with the slot set,
a step leaves it set. -/
theorem claim_C5_witness :
    (⟨some bErrTwo, [.finished, .finished]⟩ : BState).slot.isSome :=
  (claim_C5_theorem bOutcomes 3).1 ⟨some bErrOne, [.finished, .running]⟩
    ⟨some bErrTwo, [.finished, .finished]⟩
    (Relation.ReflTransGen.single
      (BStep.finishErr ⟨some bErrOne, [.finished, .running]⟩ 1 bErrTwo rfl rfl))
    rfl

/-! ### The commit phase (`commit_actions`, `src/main.rs`; `Action::commit`,
`src/action.rs`) -/

/-- The projection persisted by `PackagesDb::add_package` (`src/db.rs`):
identity, dependencies, remove scripts and `package_files`. -/
def toLocal (package : RemotePackage) : LocalPackage :=
  ⟨package.package_data, package.dependencies, package.pre_remove,
   package.package_files, package.post_remove⟩

/-- Commit errors, from `CommitError` in `src/action.rs`. -/
inductive CommitError where
  | DatabaseAdd (e : String)
  | DatabaseRemove (e : String)
deriving DecidableEq, Repr

/-- `PackagesDb::add_package`: insert a new row. -/
def storeAddPackage (db : Store) (package : RemotePackage) : Store :=
  db ++ [toLocal package]

/-- `PackagesDb::remove_package`: `DELETE FROM packages WHERE name = ?`
(all rows of that name). -/
def storeRemovePackage (db : Store) (package_name : String) : Store :=
  db.filter (fun q => !(q.package_data.name == package_name))

/-- Environment fault model for the store writes: `some e` makes the
commit of that action fail with the store error `e`. -/
abbrev CommitFaults := Action → Option String

/-- The pure effect of a successful commit (`Action::commit`). -/
def applyCommit (db : Store) (a : Action) : Store :=
  match a with
  | .Install package => storeAddPackage db package
  | .Remove package => storeRemovePackage db package.package_data.name

/-- `Action::commit` under the fault model: install adds the record,
remove deletes it by name; store errors are wrapped, not retried. -/
def commitAction (faults : CommitFaults) (db : Store) (a : Action) :
    Except CommitError Store :=
  match a with
  | .Install package =>
    match faults (.Install package) with
    | some e => .error (.DatabaseAdd e)
    | none => .ok (storeAddPackage db package)
  | .Remove package =>
    match faults (.Remove package) with
    | some e => .error (.DatabaseRemove e)
    | none => .ok (storeRemovePackage db package.package_data.name)

/-- `commit_actions` of `src/main.rs`: strictly sequential, in list
order, stopping at the first error.  Returns the final store, the
actions actually committed (in order), and the error if any. -/
def commit_actions (faults : CommitFaults) :
    List Action → Store → Store × List Action × Option CommitError
  | [], db => (db, [], none)
  | a :: rest, db =>
    match commitAction faults db a with
    | .error e => (db, [], some e)
    | .ok db' =>
      match commit_actions faults rest db' with
      | (db'', done, r) => (db'', a :: done, r)

/-- A build or commit failure of the pipeline. -/
inductive PipelineError where
  | build (e : BuildError)
  | commit (e : CommitError)
deriving DecidableEq, Repr

/-- The post-resolution half of `main` (`src/main.rs`, lines 152-169):
a build-phase error aborts before any commit; otherwise the commit loop
runs. -/
def run_pipeline (buildResult : Option BuildError) (faults : CommitFaults)
    (actions : List Action) (db : Store) :
    Store × List Action × Option PipelineError :=
  match buildResult with
  | some e => (db, [], some (.build e))
  | none =>
    match commit_actions faults actions db with
    | (db', done, some e) => (db', done, some (.commit e))
    | (db', done, none) => (db', done, none)

theorem commitAction_ok {faults : CommitFaults} {db db2 : Store} {a : Action}
    (h : commitAction faults db a = .ok db2) : db2 = applyCommit db a := by
  cases a with
  | Install package =>
    simp only [commitAction] at h
    cases hf : faults (.Install package) with
    | some e => rw [hf] at h; cases h
    | none =>
      rw [hf] at h
      injection h with h'
      exact h'.symm
  | Remove package =>
    simp only [commitAction] at h
    cases hf : faults (.Remove package) with
    | some e => rw [hf] at h; cases h
    | none =>
      rw [hf] at h
      injection h with h'
      exact h'.symm

/-- Claim C6: (a) in every complete build-phase execution in which some
action's build fails, the error slot is set, and (b) a set slot makes the
pipeline abort with the store untouched and nothing committed; (c) with
all builds succeeding, the commits run strictly sequentially in list
order: the committed actions are a prefix of the action list folded into
the store in order; no error means everything committed, and a commit
error leaves the earlier commits applied (no undo) while the failing
action and everything after it is not committed. -/
theorem claim_C6_theorem (outcomes : List (Option BuildError)) (maxThreads : Nat)
    (sF : BState) (faults : CommitFaults) (actions : List Action) (db : Store)
    (hreach : Relation.ReflTransGen (BStep outcomes maxThreads)
      (initBState outcomes.length) sF)
    (hcomp : ∀ st ∈ sF.status, st = .finished ∨ st = .skipped) :
    ((∃ i e, outcomes.get? i = some (some e)) → sF.slot ≠ none) ∧
    (∀ e, run_pipeline (some e) faults actions db = (db, [], some (.build e))) ∧
    (∀ db' done r, commit_actions faults actions db = (db', done, r) →
      (∃ t, actions = done ++ t) ∧
      db' = done.foldl applyCommit db ∧
      (r = none → done = actions) ∧
      (∀ ce, r = some ce → ∃ a rest, actions = done ++ a :: rest ∧
        commitAction faults db' a = .error ce)) := by
  refine ⟨?_, fun e => rfl, ?_⟩
  · intro ⟨i, e, hfail⟩ hslotnone
    have hinv : ∀ s, Relation.ReflTransGen (BStep outcomes maxThreads)
        (initBState outcomes.length) s →
        s.status.length = outcomes.length ∧
        (s.slot = none → ∀ j e', outcomes.get? j = some (some e') →
          s.status.get? j = some .notStarted ∨ s.status.get? j = some .running) := by
      intro s hr
      induction hr with
      | refl =>
        constructor
        · simp [initBState]
        · intro _ j e' hj
          left
          obtain ⟨hjlt, _⟩ := List.get?_eq_some.mp hj
          simp only [initBState]
          rw [List.get?_eq_getElem?, List.getElem?_eq_getElem
            (by simpa using hjlt)]
          simp [List.getElem_replicate]
      | tail hmid hstep ihm =>
        obtain ⟨ihlen, ihslot⟩ := ihm
        cases hstep with
        | start k hfifo hslot hpool =>
          refine ⟨by simpa using ihlen, ?_⟩
          intro _ j e' hj
          rcases ihslot hslot j e' hj with hk | hk
          · by_cases hkj : k = j
            · subst hkj
              right
              obtain ⟨hklt, _⟩ := List.get?_eq_some.mp hk
              exact List.get?_set_eq_of_lt _ hklt
            · rw [List.get?_set_ne _ _ hkj]
              exact Or.inl hk
          · by_cases hkj : k = j
            · subst hkj
              right
              obtain ⟨hklt, _⟩ := List.get?_eq_some.mp hk
              exact List.get?_set_eq_of_lt _ hklt
            · rw [List.get?_set_ne _ _ hkj]
              exact Or.inr hk
        | skip k e2 hfifo hslot hpool =>
          refine ⟨by simpa using ihlen, ?_⟩
          intro hn
          rw [hslot] at hn
          cases hn
        | finishOk k hrun hout =>
          refine ⟨by simpa using ihlen, ?_⟩
          intro hn j e' hj
          have hkj : k ≠ j := by
            intro he
            subst he
            rw [hout] at hj
            injection hj with h'
            cases h'
          rw [List.get?_set_ne _ _ hkj]
          exact ihslot hn j e' hj
        | finishErr k e2 hrun hout =>
          refine ⟨by simpa using ihlen, ?_⟩
          intro hn
          cases hn
    obtain ⟨hlen, hslotinv⟩ := hinv sF hreach
    rcases hslotinv hslotnone i e hfail with hst | hst <;>
    · have hmem : _ ∈ sF.status := List.get?_mem hst
      rcases hcomp _ hmem with h' | h' <;> cases h'
  · intro db' done r
    induction actions generalizing db db' done r with
    | nil =>
      intro h
      simp only [commit_actions] at h
      injection h with h1 h2
      injection h2 with h2 h3
      subst h1
      subst h2
      subst h3
      exact ⟨⟨[], rfl⟩, rfl, fun _ => rfl, fun ce hce => by cases hce⟩
    | cons a rest ih =>
      intro h
      simp only [commit_actions] at h
      cases hca : commitAction faults db a with
      | error e =>
        rw [hca] at h
        injection h with h1 h2
        injection h2 with h2 h3
        subst h1
        subst h2
        refine ⟨⟨a :: rest, rfl⟩, rfl, ?_, ?_⟩
        · intro hr
          rw [← h3] at hr
          cases hr
        · intro ce hce
          rw [← h3] at hce
          injection hce with h4
          subst h4
          exact ⟨a, rest, rfl, hca⟩
      | ok db2 =>
        rw [hca] at h
        dsimp only at h
        rcases hrest : commit_actions faults rest db2 with ⟨db'', done2, r2⟩
        rw [hrest] at h
        dsimp only at h
        injection h with h1 h2
        injection h2 with h2 h3
        subst h1
        subst h2
        subst h3
        obtain ⟨⟨t, ht⟩, hfold, hnone, herr⟩ := ih db2 db'' done2 r2 hrest
        have hdb2 : db2 = applyCommit db a := commitAction_ok hca
        refine ⟨⟨t, by simp [ht]⟩, ?_, ?_, ?_⟩
        · rw [List.foldl_cons, ← hdb2]
          exact hfold
        · intro hr
          rw [hnone hr]
        · intro ce hce
          obtain ⟨a', rest', hsplit, hfail⟩ := herr ce hce
          exact ⟨a', rest', by simp [hsplit], hfail⟩

/-- Witness for C6: one action, its build succeeding; the complete
execution `start, finishOk` ends with an empty slot, and the commit loop
commits the single install. -/
theorem claim_C6_witness :
    (∃ t, [Action.Install remoteA] = [Action.Install remoteA] ++ t) ∧
    commit_actions (fun _ => none) [Action.Install remoteA] [] =
      ([toLocal remoteA], [Action.Install remoteA], none) := by
  have hstep1 : BStep [none] 3 (initBState 1) ⟨none, [.running]⟩ :=
    BStep.start (initBState 1) 0 rfl rfl (by decide)
  have hstep2 : BStep [none] 3 ⟨none, [.running]⟩ ⟨none, [.finished]⟩ :=
    BStep.finishOk ⟨none, [.running]⟩ 0 rfl rfl
  have hchain : Relation.ReflTransGen (BStep [none] 3) (initBState 1)
      ⟨none, [.finished]⟩ :=
    Relation.ReflTransGen.tail (Relation.ReflTransGen.tail
      Relation.ReflTransGen.refl hstep1) hstep2
  have h := claim_C6_theorem [none] 3 ⟨none, [.finished]⟩ (fun _ => none)
    [Action.Install remoteA] [] hchain (by decide)
  have hcommit : commit_actions (fun _ => none) [Action.Install remoteA] [] =
      ([toLocal remoteA], [Action.Install remoteA], none) := by decide
  exact ⟨(h.2.2 [toLocal remoteA] [Action.Install remoteA] none hcommit).1, hcommit⟩

end Japm
